import Mathlib

/-!
Verification of the sales-dashboard data pipeline.

This file gives a shallow embedding, in Lean 4, of the column-mapping,
cleaning and aggregation core of the repository:

* `map_column_names` from `src/app.py` (the ColumnMapper);
* the `DataCleaner` methods from `src/scripts/data_cleaner.py`;
* the `DataAnalyzer` methods from `src/scripts/data_analyzer.py`.

Tables are modelled as a header (column name and dtype) together with a
list of rows of cells; cells are an inductive `Value` covering missing
markers (pandas NaN and NaT are merged into one `na` constructor), finite
numerics as exact rationals, positive and negative infinity (which pandas
float columns can hold and which are distinct from NaN), text and calendar
dates.  Machine floats are modelled by exact rationals together with the
explicit infinity and NaN constructors; the division-by-zero behaviour of
IEEE arithmetic (finite/0 giving a signed infinity, 0/0 giving NaN) is
modelled explicitly where the code performs divisions.  Fallible
operations (the analyzer methods, which raise `ValueError`/`KeyError` in
the source) return `Except String`.

Library primitives of pandas are modelled at the cell level and documented
at their definitions; places where the model restricts a pandas primitive
to the value kinds actually reachable in the properties proved here are
marked with a comment.
-/

namespace SalesDashboard

/-! ### Kernel-computable rational arithmetic

The field operations on `ℚ` normalize through definitions the kernel does
not reduce, so concrete witnesses could not be checked by `decide`.  The
embedding therefore routes every rational computation through `mkRat`
(which the kernel does reduce); `qAdd_eq`, `qSub_eq`, `qMul_eq` and
`qDiv_eq` identify these with the field operations, so proofs can use the
algebra of `ℚ` while witnesses evaluate. -/

def qAdd (a b : ℚ) : ℚ := mkRat (a.num * b.den + b.num * a.den) (a.den * b.den)

def qSub (a b : ℚ) : ℚ := mkRat (a.num * b.den - b.num * a.den) (a.den * b.den)

def qMul (a b : ℚ) : ℚ := mkRat (a.num * b.num) (a.den * b.den)

/-- Division; a zero divisor yields 0, matching division on `ℚ` (the
definitions below guard every division, so that case is never the one in
play). -/
def qDiv (a b : ℚ) : ℚ :=
  if b.num < 0 then mkRat (-(a.num * b.den)) (a.den * (-b.num).toNat)
  else mkRat (a.num * b.den) (a.den * b.num.toNat)

theorem num_eq_mul_den (a : ℚ) : (a.num : ℚ) = a * (a.den : ℚ) := by
  have ha : ((a.den : ℚ)) ≠ 0 := by exact_mod_cast a.den_ne_zero
  calc (a.num : ℚ) = (a.num / a.den) * a.den := by field_simp
  _ = a * a.den := by rw [Rat.num_div_den]

theorem qAdd_eq (a b : ℚ) : qAdd a b = a + b := by
  unfold qAdd
  rw [Rat.mkRat_eq_div]
  push_cast
  have ha : ((a.den : ℚ)) ≠ 0 := by exact_mod_cast a.den_ne_zero
  have hb : ((b.den : ℚ)) ≠ 0 := by exact_mod_cast b.den_ne_zero
  field_simp
  rw [num_eq_mul_den a, num_eq_mul_den b]
  ring

theorem qSub_eq (a b : ℚ) : qSub a b = a - b := by
  unfold qSub
  rw [Rat.mkRat_eq_div]
  push_cast
  have ha : ((a.den : ℚ)) ≠ 0 := by exact_mod_cast a.den_ne_zero
  have hb : ((b.den : ℚ)) ≠ 0 := by exact_mod_cast b.den_ne_zero
  field_simp
  rw [num_eq_mul_den a, num_eq_mul_den b]
  ring

theorem qMul_eq (a b : ℚ) : qMul a b = a * b := by
  unfold qMul
  rw [Rat.mkRat_eq_div]
  push_cast
  have ha : ((a.den : ℚ)) ≠ 0 := by exact_mod_cast a.den_ne_zero
  have hb : ((b.den : ℚ)) ≠ 0 := by exact_mod_cast b.den_ne_zero
  field_simp
  rw [num_eq_mul_den a, num_eq_mul_den b]
  ring

theorem qDiv_eq (a b : ℚ) : qDiv a b = a / b := by
  unfold qDiv
  rcases eq_or_ne b.num 0 with hn | hn
  · have hb : b = 0 := Rat.num_eq_zero.mp hn
    subst hb
    simp
  · have hbne : b ≠ 0 := fun hb => hn (by rw [hb]; rfl)
    have ha : ((a.den : ℚ)) ≠ 0 := by exact_mod_cast a.den_ne_zero
    have hbd : ((b.den : ℚ)) ≠ 0 := by exact_mod_cast b.den_ne_zero
    have hnq : ((b.num : ℚ)) ≠ 0 := by exact_mod_cast hn
    rcases lt_or_gt_of_ne hn with h | h
    · rw [if_pos h, Rat.mkRat_eq_div]
      have h1 : (((-b.num).toNat : ℤ)) = -b.num := by omega
      have habsQ : (((-b.num).toNat : ℚ)) = -((b.num : ℤ) : ℚ) := by
        calc (((-b.num).toNat : ℚ)) = ((((-b.num).toNat : ℤ)) : ℚ) := by norm_cast
        _ = ((-b.num : ℤ) : ℚ) := by rw [h1]
        _ = -((b.num : ℤ) : ℚ) := by push_cast; ring
      push_cast
      rw [habsQ]
      field_simp
      simp only [num_eq_mul_den]
      ring
    · rw [if_neg (by omega), Rat.mkRat_eq_div]
      have h1 : ((b.num.toNat : ℤ)) = b.num := by omega
      have habsQ : ((b.num.toNat : ℚ)) = ((b.num : ℤ) : ℚ) := by
        calc ((b.num.toNat : ℚ)) = (((b.num.toNat : ℤ)) : ℚ) := by norm_cast
        _ = ((b.num : ℤ) : ℚ) := by rw [h1]
      push_cast
      rw [habsQ]
      field_simp
      simp only [num_eq_mul_den]
      ring

/-! ### String helpers

`lowerTrim` models the pythonic `col.lower().strip()` used throughout
`map_column_names` (ASCII column names).  `strContains s pat` models the
python substring test `pat in s`. -/

/-- ASCII lower-casing of one character (python `str.lower` on the ASCII
column names this code handles). -/
def charLower (c : Char) : Char :=
  if c.isUpper then Char.ofNat (c.toNat + 32) else c

/-- Drop leading whitespace from a character list. -/
def trimL : List Char → List Char
  | [] => []
  | c :: cs => if c.isWhitespace then trimL cs else c :: cs

/-- Strip whitespace from both ends (python `str.strip`). -/
def trimChars (l : List Char) : List Char := trimL (trimL l.reverse).reverse

def lowerTrim (s : String) : String := String.mk (trimChars (s.data.map charLower))

def charsLead : List Char → List Char → Bool
  | [], _ => true
  | _ :: _, [] => false
  | p :: ps, c :: cs => p = c && charsLead ps cs

def charsOccur (p : List Char) : List Char → Bool
  | [] => charsLead p []
  | c :: cs => charsLead p (c :: cs) || charsOccur p cs

def strContains (s pat : String) : Bool := charsOccur pat.data s.data

/-! ### Insertion-ordered dictionaries

`map_column_names` builds a python dict from column names to canonical
field names.  Python dicts keep insertion order; assigning to an existing
key updates the value in place.  `dictInsert` models `m[k] = v`. -/

def dictInsert : List (String × String) → String → String → List (String × String)
  | [], k, v => [(k, v)]
  | (k0, v0) :: rest, k, v =>
      if k0 = k then (k0, v) :: rest else (k0, v0) :: dictInsert rest k v

/-- Models `v in m.values()`. -/
def hasValue (m : List (String × String)) (v : String) : Bool :=
  m.any (fun e => e.2 = v)

/-- The original column that the mapping sends to canonical field `v`
(the first entry with value `v`, matching dict iteration order). -/
def keyMappedTo (m : List (String × String)) (v : String) : Option String :=
  (m.find? (fun e => e.2 = v)).map (fun e => e.1)

/-! ### ColumnMapper (`map_column_names`, `src/app.py` lines 100-187)

Each python `for col in df_columns:` loop with `break` statements becomes a
recursion over the column list; loops whose body does not depend on the
dict being built along the way become `List.find?`. -/

/-- The date loop (lines 106-116): first column containing "date"; inside
it, the order/transaction/sale branch and the fallback branch both map and
break, so the first "date"-containing column always wins. -/
def dateStep (m : List (String × String)) : List String → List (String × String)
  | [] => m
  | c :: cs =>
      let l := lowerTrim c
      if strContains l "date" then
        if strContains l "order" || strContains l "transaction" || strContains l "sale" then
          dictInsert m c "date"
        else if strContains l "date" && !(hasValue m "date") then
          dictInsert m c "date"
        else dateStep m cs
      else dateStep m cs

/-- The product loop (lines 119-129): a single pass whose three branches
(product and name; product, if product unmapped; item or name, if product
unmapped) are tested per column, each ending in `break`. -/
def productStep (m : List (String × String)) : List String → List (String × String)
  | [] => m
  | c :: cs =>
      let l := lowerTrim c
      if strContains l "product" && strContains l "name" then
        dictInsert m c "product"
      else if strContains l "product" && !(hasValue m "product") then
        dictInsert m c "product"
      else if (strContains l "item" || strContains l "name") && !(hasValue m "product") then
        dictInsert m c "product"
      else productStep m cs

/-- The three region loops (lines 133-157): exact match on "region" first;
else first column containing "region"; else first column exactly named
"state" or "country". -/
def regionStep (m : List (String × String)) (cols : List String) : List (String × String) :=
  match cols.find? (fun c => lowerTrim c = "region") with
  | some c => dictInsert m c "region"
  | none =>
      match cols.find? (fun c => strContains (lowerTrim c) "region") with
      | some c => dictInsert m c "region"
      | none =>
          match cols.find? (fun c => lowerTrim c = "state" || lowerTrim c = "country") with
          | some c => dictInsert m c "region"
          | none => m

/-- The revenue loop (lines 160-170). -/
def revenueStep (m : List (String × String)) : List String → List (String × String)
  | [] => m
  | c :: cs =>
      let l := lowerTrim c
      if l = "sales" then
        dictInsert m c "revenue"
      else if strContains l "sales" && !(hasValue m "revenue") then
        dictInsert m c "revenue"
      else if (l = "revenue" || l = "amount" || l = "total") && !(hasValue m "revenue") then
        dictInsert m c "revenue"
      else revenueStep m cs

/-- The quantity loop (lines 173-180). -/
def quantityStep (m : List (String × String)) : List String → List (String × String)
  | [] => m
  | c :: cs =>
      let l := lowerTrim c
      if l = "quantity" then
        dictInsert m c "quantity"
      else if strContains l "quantity" || l = "qty" || l = "units" then
        dictInsert m c "quantity"
      else quantityStep m cs

/-- `map_column_names`, restricted to the mapping dictionary it returns
(the dataframe rename is a pass-through of this dictionary). -/
def mapColumnNames (cols : List String) : List (String × String) :=
  quantityStep (revenueStep (regionStep (productStep (dateStep [] cols) cols) cols) cols) cols

/-- The disjunction of the three product-branch tests of the product loop,
as a single per-column predicate. -/
def prodPredB (c : String) : Bool :=
  let l := lowerTrim c
  strContains l "product" || strContains l "item" || strContains l "name"

example :
    mapColumnNames ["Order Date", "Product Name", "Region", "Sales", "Quantity"] =
      [("Order Date", "date"), ("Product Name", "product"), ("Region", "region"),
       ("Sales", "revenue"), ("Quantity", "quantity")] := by decide

example :
    mapColumnNames ["Product ID", "Product Name"] = [("Product ID", "product")] := by decide

/-! ### Data model

A `Table` models a pandas DataFrame: a header of column names with dtypes
and a list of rows of cells.  `Value.na` merges the missing markers NaN,
NaT and None; `inf`/`ninf` model IEEE infinities, which are not missing
values (`isnull` is false on them, `fillna`/`dropna` ignore them). -/

structure Date where
  year : Nat
  month : Nat
  day : Nat
deriving DecidableEq, Repr

inductive Value where
  | na
  | num (q : ℚ)
  | inf
  | ninf
  | str (s : String)
  | date (d : Date)
deriving DecidableEq, Repr

inductive DType where
  | num
  | obj
  | dt
deriving DecidableEq, Repr

structure Table where
  header : List (String × DType)
  rows : List (List Value)
deriving DecidableEq, Repr

def hasCol (t : Table) (name : String) : Bool := t.header.any (fun h => h.1 = name)

/-- Index of the first column with the given name (pandas column lookup
selects by name; the embedded tables carry uniquely named columns). -/
def colIdx? : List (String × DType) → String → Option Nat
  | [], _ => none
  | h :: rest, name => if h.1 = name then some 0 else (colIdx? rest name).map (fun j => j + 1)

def colIdx (t : Table) (name : String) : Option Nat := colIdx? t.header name

def cellAt (r : List Value) (j : Nat) : Value := r.getD j .na

def colVals (t : Table) (j : Nat) : List Value := t.rows.map (fun r => cellAt r j)

def colValsByName (t : Table) (name : String) : List Value :=
  match colIdx t name with
  | some j => colVals t j
  | none => []

/-- `df.isnull().sum().sum()`: total count of missing cells. -/
def countNaRow (r : List Value) : Nat := (r.filter (fun v => v = Value.na)).length

def countMissing (t : Table) : Nat := (t.rows.map countNaRow).sum

def modAt {α : Type} : Nat → (α → α) → List α → List α
  | _, _, [] => []
  | 0, f, a :: as => f a :: as
  | n + 1, f, a :: as => a :: modAt n f as

def mapColCells (t : Table) (j : Nat) (f : Value → Value) : Table :=
  { t with rows := t.rows.map (modAt j f) }

def setDType (t : Table) (j : Nat) (d : DType) : Table :=
  { t with header := modAt j (fun h => (h.1, d)) t.header }

def dtypeAt (t : Table) (j : Nat) : DType := (t.header.getD j ("", DType.obj)).2

/-- Cell shapes under which the cellwise casts of `fix_data_types` are the
identity: already-parsed dates (or NaT) in a datetime column, numerics (or
NaN) in a numeric column, text in an object column. -/
def cellIsDT : Value → Bool
  | Value.date _ => true
  | Value.na => true
  | _ => false

def cellIsNum : Value → Bool
  | Value.num _ => true
  | Value.na => true
  | _ => false

def cellIsStr : Value → Bool
  | Value.str _ => true
  | _ => false

/-- The canonical columns present in the table are already in the shape
`fix_data_types` produces: the `date` column is datetime-typed with
date-or-missing cells, `revenue`/`quantity` numeric with
numeric-or-missing cells, `product`/`region` object-typed with text
cells. -/
def wellTypedB (t : Table) : Bool :=
  (List.range t.header.length).all fun j =>
    if (t.header.getD j ("", DType.obj)).1 = "date" then
      decide (dtypeAt t j = DType.dt) && (colVals t j).all cellIsDT
    else if (t.header.getD j ("", DType.obj)).1 = "revenue" ∨
        (t.header.getD j ("", DType.obj)).1 = "quantity" then
      decide (dtypeAt t j = DType.num) && (colVals t j).all cellIsNum
    else if (t.header.getD j ("", DType.obj)).1 = "product" ∨
        (t.header.getD j ("", DType.obj)).1 = "region" then
      decide (dtypeAt t j = DType.obj) && (colVals t j).all cellIsStr
    else true

/-! ### DataCleaner (`src/scripts/data_cleaner.py`) -/

/-- Keep-first deduplication: `df.drop_duplicates()` keeps the first
occurrence of each row; pandas compares NaN cells as equal here, matching
equality of `Value.na`. -/
def dedupAux {α : Type} [DecidableEq α] (seen : List α) : List α → List α
  | [] => []
  | r :: rs => if r ∈ seen then dedupAux seen rs else r :: dedupAux (r :: seen) rs

/-- `remove_duplicates` (lines 25-40). -/
def removeDuplicates (t : Table) : Table := { t with rows := dedupAux [] t.rows }

/-- Digits of a character list as a natural number; `none` if empty or a
character is not a digit. -/
def digitsToNat? (l : List Char) : Option Nat :=
  match l with
  | [] => none
  | _ =>
      l.foldl (fun acc c =>
        match acc with
        | none => none
        | some n => if c.isDigit then some (n * 10 + (c.toNat - 48)) else none) (some 0)

/-- Numeric literal parser modelling `pd.to_numeric` on strings: optional
sign, decimal digits, optional fractional part.  Exotic inputs pandas also
accepts (exponents, "inf", thousands formats) are out of scope of every
property below and parse as `none` (hence coerce to missing). -/
def parseRatStr (s : String) : Option ℚ :=
  let cs := trimChars s.data
  let (neg, cs2) :=
    match cs with
    | '-' :: r => (true, r)
    | '+' :: r => (false, r)
    | _ => (false, cs)
  let ip := cs2.takeWhile (fun c => c ≠ '.')
  let rest := cs2.dropWhile (fun c => c ≠ '.')
  let val? : Option ℚ :=
    match rest with
    | [] => (digitsToNat? ip).map (fun n => (n : ℚ))
    | '.' :: fp =>
        match ip, fp with
        | [], [] => none
        | [], _ => (digitsToNat? fp).map (fun f => mkRat f (10 ^ fp.length))
        | _, [] => (digitsToNat? ip).map (fun n => (n : ℚ))
        | _, _ =>
            match digitsToNat? ip, digitsToNat? fp with
            | some n, some f => some (mkRat (n * 10 ^ fp.length + f) (10 ^ fp.length))
            | _, _ => none
    | _ => none
  val?.map (fun q => if neg then -q else q)

/-- ISO date parser modelling `pd.to_datetime` on the "YYYY-MM-DD" strings
this dataset carries; other pandas-accepted formats are out of scope of
every property below. -/
def parseDateStr (s : String) : Option Date :=
  let cs := trimChars s.data
  let y := cs.takeWhile (fun c => c ≠ '-')
  let r1 := (cs.dropWhile (fun c => c ≠ '-')).drop 1
  let m := r1.takeWhile (fun c => c ≠ '-')
  let d := (r1.dropWhile (fun c => c ≠ '-')).drop 1
  match digitsToNat? y, digitsToNat? m, digitsToNat? d with
  | some yy, some mm, some dd =>
      if 1 ≤ mm && mm ≤ 12 && 1 ≤ dd && dd ≤ 31 then some ⟨yy, mm, dd⟩ else none
  | _, _, _ => none

/-- Cellwise `pd.to_datetime(col, errors="coerce")`.  Numeric cells, which
pandas would read as epoch nanoseconds, are not reachable in any property
below and are modelled as unparseable. -/
def toDatetimeCell : Value → Value
  | Value.date d => Value.date d
  | Value.str s =>
      match parseDateStr s with
      | some d => Value.date d
      | none => Value.na
  | _ => Value.na

/-- Cellwise `pd.to_numeric(col, errors="coerce")`.  Date cells, which
pandas would convert to epoch nanoseconds, are not reachable in any
property below and are modelled as unparseable. -/
def toNumericCell : Value → Value
  | Value.num q => Value.num q
  | Value.inf => Value.inf
  | Value.ninf => Value.ninf
  | Value.str s =>
      match parseRatStr s with
      | some q => Value.num q
      | none => Value.na
  | _ => Value.na

def digitChar (n : Nat) : Char := Char.ofNat (48 + n % 10)

def pad2 (n : Nat) : String := String.mk [digitChar (n / 10), digitChar n]

def pad4 (n : Nat) : String :=
  String.mk [digitChar (n / 1000), digitChar (n / 100), digitChar (n / 10), digitChar n]

def natDigitsAux : Nat → Nat → List Char
  | 0, _ => []
  | fuel + 1, n => if n < 10 then [digitChar n] else natDigitsAux fuel (n / 10) ++ [digitChar n]

def natToStr (n : Nat) : String := String.mk (natDigitsAux (n + 1) n)

def intToStr (i : Int) : String :=
  if i < 0 then "-" ++ natToStr i.natAbs else natToStr i.natAbs

/-- Modelled rendering of a numeric cell; pandas renders binary floats
while the model holds exact rationals, and no property below depends on
the exact text. -/
def numRender (q : ℚ) : String :=
  if q.den = 1 then intToStr q.num ++ ".0" else intToStr q.num ++ "/" ++ natToStr q.den

def dateRender (d : Date) : String :=
  pad4 d.year ++ "-" ++ pad2 d.month ++ "-" ++ pad2 d.day ++ " 00:00:00"

/-- Cellwise `col.astype(str)`: pandas renders a NaN cell as the literal
string "nan". -/
def astypeStrCell : Value → Value
  | Value.str s => Value.str s
  | Value.na => Value.str "nan"
  | Value.num q => Value.str (numRender q)
  | Value.inf => Value.str "inf"
  | Value.ninf => Value.str "-inf"
  | Value.date d => Value.str (dateRender d)

def applyCastAt (t : Table) (name : String) (dty : DType) (f : Value → Value) : Table :=
  match colIdx t name with
  | some j => setDType (mapColCells t j f) j dty
  | none => t

/-- `fix_data_types` (lines 100-133): date to datetime with coercion, then
revenue and quantity to numeric with coercion, then product and region to
text. -/
def fixDataTypes (t : Table) : Table :=
  let t1 := applyCastAt t "date" DType.dt toDatetimeCell
  let t2 := applyCastAt t1 "revenue" DType.num toNumericCell
  let t3 := applyCastAt t2 "quantity" DType.num toNumericCell
  let t4 := applyCastAt t3 "product" DType.obj astypeStrCell
  applyCastAt t4 "region" DType.obj astypeStrCell

/-! ### Sorting helpers

Insertion sort by a boolean relation.  pandas `sort_values` uses an
unstable quicksort whose tie order is implementation-defined; every
property below is tie-order independent (sums are permutation invariant
and sortedness does not constrain ties). -/

def insertByLE {α : Type} (le : α → α → Bool) (a : α) : List α → List α
  | [] => [a]
  | x :: xs => if le a x then a :: x :: xs else x :: insertByLE le a xs

def sortByLE {α : Type} (le : α → α → Bool) (l : List α) : List α :=
  l.foldr (insertByLE le) []

def valueRank : Value → Nat
  | Value.na => 0
  | Value.ninf => 1
  | Value.num _ => 2
  | Value.inf => 3
  | Value.str _ => 4
  | Value.date _ => 5

def dateLE (a b : Date) : Bool :=
  a.year < b.year ||
    (a.year = b.year && (a.month < b.month || (a.month = b.month && a.day ≤ b.day)))

/-- Ascending order on cells; distinct kinds are ranked (a mixed-kind
column would make pandas raise, and never arises below). -/
def valueLE (a b : Value) : Bool :=
  match a, b with
  | Value.num x, Value.num y => x ≤ y
  | Value.str x, Value.str y => x < y || x = y
  | Value.date x, Value.date y => dateLE x y
  | _, _ => valueRank a ≤ valueRank b

/-! ### Missing-value handling (`handle_missing_values`, lines 42-98) -/

def numOf? : Value → Option ℚ
  | Value.num q => some q
  | _ => none

def numsOf (l : List Value) : List ℚ := l.filterMap numOf?

/-- `Series.median()`: missing cells are skipped; the median of an even
count is the mean of the two middle values; all-missing gives NaN. -/
def medianVal (l : List Value) : Value :=
  let xs := sortByLE (fun a b : ℚ => a ≤ b) (numsOf l)
  let n := xs.length
  if n = 0 then Value.na
  else if n % 2 = 1 then Value.num (xs.getD (n / 2) 0)
  else Value.num (qDiv (qAdd (xs.getD (n / 2 - 1) 0) (xs.getD (n / 2) 0)) 2)

def countOcc (l : List Value) (v : Value) : Nat := (l.filter (fun x => x = v)).length

/-- `Series.mode()[0]` when the mode is nonempty: missing cells are
dropped; among equally frequent values `mode()` returns them sorted
ascending, so the first is the least. -/
def modeTop (l : List Value) : Option Value :=
  let xs := l.filter (fun v => !(v = Value.na))
  let ds := dedupAux ([] : List Value) xs
  let maxc := (ds.map (countOcc xs)).foldr max 0
  (sortByLE valueLE (ds.filter (fun v => countOcc xs v = maxc))).head?

/-- `col.fillna(v, inplace=True)` on column `j`; filling with the missing
marker itself (the median of an all-missing column) is the identity,
matching pandas `fillna(NaN)`. -/
def fillColumnWith (t : Table) (j : Nat) (v : Value) : Table :=
  mapColCells t j (fun x => if x = Value.na then v else x)

/-- The numeric pass of the `fill` strategy (lines 71-77).  The source
guards each column with `isnull().any()`; filling a column without missing
cells is the identity, so the guard is semantically transparent. -/
def fillNumericColumns (t : Table) : Table :=
  (List.range t.header.length).foldl
    (fun acc j =>
      if dtypeAt acc j = DType.num then fillColumnWith acc j (medianVal (colVals acc j))
      else acc) t

/-- The categorical pass of the `fill` strategy (lines 79-85), with the
literal "Unknown" fallback when the mode is empty. -/
def fillTextColumns (t : Table) : Table :=
  (List.range t.header.length).foldl
    (fun acc j =>
      if dtypeAt acc j = DType.obj then
        match modeTop (colVals acc j) with
        | some v => fillColumnWith acc j v
        | none => fillColumnWith acc j (Value.str "Unknown")
      else acc) t

def numEntries (col : List Value) : List (Nat × ℚ) :=
  col.enum.filterMap (fun p =>
    match p.2 with
    | Value.num q => some (p.1, q)
    | _ => none)

/-- `Series.interpolate(method="linear")` at one missing position: linear
in row position between the nearest numeric neighbours; positions after
the last numeric value carry it forward; positions before the first stay
missing. -/
def interpCell (es : List (Nat × ℚ)) (i : Nat) : Value :=
  match (es.filter (fun e => e.1 < i)).getLast?, (es.filter (fun e => i < e.1)).head? with
  | some p, some nx =>
      Value.num (qAdd p.2 (qDiv (qMul (qSub nx.2 p.2) (qSub (i : ℚ) (p.1 : ℚ))) (qSub (nx.1 : ℚ) (p.1 : ℚ))))
  | some p, none => Value.num p.2
  | none, _ => Value.na

def interpolateColumn (col : List Value) : List Value :=
  let es := numEntries col
  col.enum.map (fun p =>
    match p.2 with
    | Value.na => interpCell es p.1
    | v => v)

def setColumn (t : Table) (j : Nat) (vals : List Value) : Table :=
  { t with rows := List.zipWith (fun r v => modAt j (fun _ => v) r) t.rows vals }

/-- The `interpolate` strategy (lines 87-93), numeric columns only. -/
def interpolateNumericColumns (t : Table) : Table :=
  (List.range t.header.length).foldl
    (fun acc j =>
      if dtypeAt acc j = DType.num then setColumn acc j (interpolateColumn (colVals acc j))
      else acc) t

/-- The strategy dispatch of `handle_missing_values` applied to the copy
`df_cleaned` (lines 64-94).  The `if`/`elif` chain has no `else` branch:
an unrecognized strategy falls through and the copy is returned as is. -/
def handleBody (dfc : Table) (strategy : String) : Table :=
  if strategy = "drop" then
    { dfc with rows := dfc.rows.filter (fun r => r.all (fun v => !(v = Value.na))) }
  else if strategy = "fill" then fillTextColumns (fillNumericColumns dfc)
  else if strategy = "interpolate" then interpolateNumericColumns dfc
  else dfc

/-- `handle_missing_values` (lines 42-98): when the table has no missing
cells it returns the received table before looking at the strategy. -/
def handleMissingValues (df : Table) (strategy : String) : Table :=
  if countMissing df = 0 then df else handleBody df strategy

/-- `clean_all` (lines 179-198). -/
def cleanAll (df : Table) (strategy : String) : Table :=
  handleMissingValues (fixDataTypes (removeDuplicates df)) strategy

example :
    cleanAll ⟨[("revenue", DType.num)], [[Value.num 2], [Value.na]]⟩ "fill" =
      ⟨[("revenue", DType.num)], [[Value.num 2], [Value.num 2]]⟩ := by decide

example :
    handleMissingValues ⟨[("x", DType.num)], [[Value.na]]⟩ "bogus" =
      ⟨[("x", DType.num)], [[Value.na]]⟩ := by decide

instance {ε α : Type} [DecidableEq ε] [DecidableEq α] : DecidableEq (Except ε α) := fun a b =>
  match a, b with
  | Except.ok x, Except.ok y =>
      if h : x = y then isTrue (by rw [h]) else isFalse (by intro hc; cases hc; exact h rfl)
  | Except.error x, Except.error y =>
      if h : x = y then isTrue (by rw [h]) else isFalse (by intro hc; cases hc; exact h rfl)
  | Except.ok _, Except.error _ => isFalse (by intro hc; cases hc)
  | Except.error _, Except.ok _ => isFalse (by intro hc; cases hc)

/-! ### Cell arithmetic for the analyzer

`DataAnalyzer` does column arithmetic on float columns; the IEEE
behaviours that matter below are explicit: division of a nonzero finite
value by zero gives a signed infinity, 0/0 gives NaN, and NaN propagates.
Text and date cells inside an arithmetic column would make pandas raise
and are unreachable under the hypotheses of every property below; they are
modelled as NaN. -/

def vMulC (v : Value) (c : ℚ) : Value :=
  match v with
  | Value.num q => Value.num (qMul q c)
  | Value.inf => if c > 0 then Value.inf else if c < 0 then Value.ninf else Value.na
  | Value.ninf => if c > 0 then Value.ninf else if c < 0 then Value.inf else Value.na
  | _ => Value.na

def vSub (a b : Value) : Value :=
  match a, b with
  | Value.num x, Value.num y => Value.num (qSub x y)
  | Value.inf, Value.num _ => Value.inf
  | Value.ninf, Value.num _ => Value.ninf
  | Value.num _, Value.inf => Value.ninf
  | Value.num _, Value.ninf => Value.inf
  | Value.inf, Value.ninf => Value.inf
  | Value.ninf, Value.inf => Value.ninf
  | _, _ => Value.na

def vDiv (a b : Value) : Value :=
  match a, b with
  | Value.num x, Value.num y =>
      if y ≠ 0 then Value.num (qDiv x y)
      else if x > 0 then Value.inf
      else if x < 0 then Value.ninf
      else Value.na
  | Value.num _, Value.inf => Value.num 0
  | Value.num _, Value.ninf => Value.num 0
  | Value.inf, Value.num y => if y < 0 then Value.ninf else Value.inf
  | Value.ninf, Value.num y => if y < 0 then Value.inf else Value.ninf
  | _, _ => Value.na

/-- `Series.sum()`: missing cells are skipped, an empty or all-missing
column sums to 0.  Modelled over finite numerics; the hypotheses of the
properties below keep infinities out of summed columns. -/
def sumQ (l : List Value) : ℚ := (numsOf l).foldr qAdd 0

/-- `Series.mean()`: missing cells are skipped; all-missing gives NaN; an
infinity dominates. -/
def meanVal (l : List Value) : Value :=
  let xs := l.filter (fun v => !(v = Value.na))
  if xs.isEmpty then Value.na
  else if xs.any (fun v => v = Value.inf) then
    if xs.any (fun v => v = Value.ninf) then Value.na else Value.inf
  else if xs.any (fun v => v = Value.ninf) then Value.ninf
  else Value.num (qDiv ((numsOf xs).foldr qAdd 0) ((xs.length : ℚ)))

/-! ### DataAnalyzer (`src/scripts/data_analyzer.py`)

The analyzer holds `self.df` (a value copy of the constructor argument);
its methods are functions of that table.  Methods that raise
(`ValueError` on guard checks, pandas `KeyError` on grouping by an absent
column) return `Except.error`; messages are the source messages with the
quote characters dropped. -/

/-- `df.groupby(key)[val].sum()` with default `sort=True` and
`dropna=True`: one row per distinct non-missing key, keys sorted
ascending, group sums skipping missing values. -/
def groupbySum {κ : Type} [DecidableEq κ] (le : κ → κ → Bool)
    (pairs : List (Option κ × Value)) : List (κ × ℚ) :=
  let ks := dedupAux [] (pairs.filterMap Prod.fst)
  (sortByLE le ks).map (fun k =>
    (k, sumQ (pairs.filterMap (fun p => if p.1 = some k then some p.2 else none))))

/-- A missing cell is dropped as a group key (`groupby` default). -/
def optKey (v : Value) : Option Value := if v = Value.na then none else some v

def keyValPairs (t : Table) (keyName valName : String) : List (Option Value × Value) :=
  match colIdx t keyName, colIdx t valName with
  | some ki, some vi => t.rows.map (fun r => (optKey (cellAt r ki), cellAt r vi))
  | _, _ => []

/-- `sort_values(ascending=False)` on the summed column. -/
def sortDescSnd (l : List (Value × ℚ)) : List (Value × ℚ) :=
  sortByLE (fun a b => b.2 ≤ a.2) l

/-- `calculate_total_revenue` (lines 32-44). -/
def calculateTotalRevenue (t : Table) : Except String ℚ :=
  if !(hasCol t "revenue") then Except.error "revenue column not found in dataframe"
  else Except.ok (sumQ (colValsByName t "revenue"))

/-- `get_top_products` (lines 46-69). -/
def getTopProducts (t : Table) (n : Nat) : Except String (List (Value × ℚ)) :=
  if !(hasCol t "product") || !(hasCol t "revenue") then
    Except.error "Required columns product and revenue not found"
  else Except.ok ((sortDescSnd (groupbySum valueLE (keyValPairs t "product" "revenue"))).take n)

/-- `get_region_wise_revenue` (lines 71-90). -/
def getRegionWiseRevenue (t : Table) : Except String (List (Value × ℚ)) :=
  if !(hasCol t "region") || !(hasCol t "revenue") then
    Except.error "Required columns region and revenue not found"
  else Except.ok (sortDescSnd (groupbySum valueLE (keyValPairs t "region" "revenue")))

/-- `pd.to_datetime(col)` without coercion: raises on an unparseable
value; missing stays NaT.  Numeric cells (epoch nanoseconds for pandas)
are unreachable below and modelled as a raise. -/
def strictParseDate : Value → Except String (Option Date)
  | Value.date d => Except.ok (some d)
  | Value.na => Except.ok none
  | Value.str s =>
      match parseDateStr s with
      | some d => Except.ok (some d)
      | none => Except.error "could not parse date"
  | _ => Except.error "could not parse date"

/-- `dt.to_period("M")`: the calendar month of a date. -/
def monthKey (d : Date) : Nat × Nat := (d.year, d.month)

/-- Chronological order on month periods. -/
def monthLE (a b : Nat × Nat) : Bool := a.1 < b.1 || (a.1 = b.1 && a.2 ≤ b.2)

/-- `str(Period)`: the "YYYY-MM" label. -/
def monthLabel (ym : Nat × Nat) : String := pad4 ym.1 ++ "-" ++ pad2 ym.2

/-- `(curr - prev) / prev * 100` under IEEE arithmetic. -/
def pctVal (prev curr : ℚ) : Value :=
  if prev ≠ 0 then Value.num (qMul (qDiv (qSub curr prev) prev) 100)
  else if curr > 0 then Value.inf
  else if curr < 0 then Value.ninf
  else Value.na

def pctAux (prev : ℚ) : List ℚ → List Value
  | [] => []
  | c :: rest => pctVal prev c :: pctAux c rest

/-- `Series.pct_change() * 100`: the first entry is NaN (no prior
period). -/
def pctChange : List ℚ → List Value
  | [] => []
  | x :: xs => Value.na :: pctAux x xs

/-- `fillna(0)`: replaces NaN only; infinities are not missing values and
pass through. -/
def fillNaZero (l : List Value) : List Value :=
  l.map (fun v => if v = Value.na then Value.num 0 else v)

/-- `calculate_monthly_growth_rate` (lines 92-121): month label, monthly
revenue, growth rate cell. -/
def calculateMonthlyGrowthRate (t : Table) : Except String (List (String × ℚ × Value)) :=
  if !(hasCol t "date") || !(hasCol t "revenue") then
    Except.error "Required columns date and revenue not found"
  else
    match (colValsByName t "date").mapM strictParseDate with
    | Except.error e => Except.error e
    | Except.ok dcol =>
        let revs := colValsByName t "revenue"
        let pairs := List.zipWith (fun od v => (od.map monthKey, v)) dcol revs
        let monthly := groupbySum monthLE pairs
        let rl : List ℚ := monthly.map (fun p => p.2)
        let growth := fillNaZero (pctChange rl)
        Except.ok (List.zipWith (fun ym pr => (monthLabel ym, pr))
          (monthly.map (fun p => p.1)) (List.zip rl growth))

/-- `calculate_profit_margin` (lines 123-161): rows of (product, summed
revenue, summed cost, summed profit, mean per-row margin), sorted by
summed profit descending.  The python truthiness test
`if cost_column and cost_column in df_temp.columns` makes an empty or
absent cost-column name fall back to the 60 percent estimate; grouping by
a missing `product` column raises `KeyError("product")`. -/
def calculateProfitMargin (t : Table) (costColumn : Option String) :
    Except String (List (Value × ℚ × ℚ × ℚ × Value)) :=
  if !(hasCol t "revenue") then Except.error "revenue column not found"
  else
    let revs := colValsByName t "revenue"
    let costs :=
      match costColumn with
      | some c =>
          if c ≠ "" && hasCol t c then colValsByName t c
          else revs.map (fun v => vMulC v (mkRat 3 5))
      | none => revs.map (fun v => vMulC v (mkRat 3 5))
    let profits := List.zipWith vSub revs costs
    let margins := List.zipWith (fun p r => vMulC (vDiv p r) 100) profits revs
    if !(hasCol t "product") then Except.error "product"
    else
      let prods := colValsByName t "product"
      let ks := dedupAux [] (prods.filter (fun k => !(k = Value.na)))
      let agg := (sortByLE valueLE ks).map (fun k =>
        let idxs := (List.range prods.length).filter (fun i => prods.getD i Value.na = k)
        (k, sumQ (idxs.map (fun i => revs.getD i Value.na)),
            sumQ (idxs.map (fun i => costs.getD i Value.na)),
            sumQ (idxs.map (fun i => profits.getD i Value.na)),
            meanVal (idxs.map (fun i => margins.getD i Value.na))))
      Except.ok (sortByLE (fun a b => b.2.2.2.1 ≤ a.2.2.2.1) agg)

example :
    calculateMonthlyGrowthRate
      ⟨[("date", DType.dt), ("revenue", DType.num)],
        [[Value.date ⟨2024, 1, 15⟩, Value.num 0],
         [Value.date ⟨2024, 2, 15⟩, Value.num 100]]⟩ =
      Except.ok [("2024-01", 0, Value.num 0), ("2024-02", 100, Value.inf)] := by decide

example :
    calculateProfitMargin
      ⟨[("product", DType.obj), ("revenue", DType.num)],
        [[Value.str "Widget", Value.num 100]]⟩ none =
      Except.ok [(Value.str "Widget", 100, 60, 40, Value.num 40)] := by decide

example :
    calculateTotalRevenue ⟨[("region", DType.obj), ("revenue", DType.num)],
      [[Value.na, Value.num 50]]⟩ = Except.ok 50 := by decide

example :
    getRegionWiseRevenue ⟨[("region", DType.obj), ("revenue", DType.num)],
      [[Value.na, Value.num 50]]⟩ = Except.ok [] := by decide

/-! ### Object-level model of dataframe mutation

The frame property of the spec (callers tables are never mutated in
place) is about python object identity, so the cited methods are also
embedded at the object level: dataframes live in a heap of numbered
objects, `df.copy()` allocates, and every in-place primitive
(`fillna(..., inplace=True)`, column assignment) is a `heapWrite` against
the object it targets in the source.  Each embedded method returns the
heap after the call together with the id of the returned object. -/

structure PyHeap where
  next : Nat
  mem : Nat → Table

def heapRead (h : PyHeap) (i : Nat) : Table := h.mem i

def heapWrite (h : PyHeap) (i : Nat) (t : Table) : PyHeap :=
  ⟨h.next, fun j => if j = i then t else h.mem j⟩

/-- `df.copy()` and freshly built frames: allocate a new object. -/
def heapAlloc (h : PyHeap) (t : Table) : PyHeap × Nat :=
  (⟨h.next + 1, fun j => if j = h.next then t else h.mem j⟩, h.next)

/-- `remove_duplicates` at object level: `df.drop_duplicates()` builds a
new frame and writes nothing into the argument. -/
def removeDuplicatesSt (h : PyHeap) (dfId : Nat) : PyHeap × Nat :=
  heapAlloc h (removeDuplicates (heapRead h dfId))

/-- `fix_data_types` at object level: `df_cleaned = df.copy()`, then the
column assignments mutate the copy, which is returned. -/
def fixDataTypesSt (h : PyHeap) (dfId : Nat) : PyHeap × Nat :=
  let ac := heapAlloc h (heapRead h dfId)
  let h2 := heapWrite ac.1 ac.2 (fixDataTypes (heapRead ac.1 ac.2))
  (h2, ac.2)

/-- `handle_missing_values` at object level: with no missing cells the
received object itself is returned untouched; otherwise the strategy
dispatch mutates the copy `df_cleaned`. -/
def handleMissingValuesSt (h : PyHeap) (dfId : Nat) (strategy : String) : PyHeap × Nat :=
  if countMissing (heapRead h dfId) = 0 then (h, dfId)
  else
    let ac := heapAlloc h (heapRead h dfId)
    let h2 := heapWrite ac.1 ac.2 (handleBody (heapRead ac.1 ac.2) strategy)
    (h2, ac.2)

/-- `DataAnalyzer.__init__` at object level: `self.df = df.copy()`. -/
def analyzerInitSt (h : PyHeap) (dfId : Nat) : PyHeap × Nat :=
  heapAlloc h (heapRead h dfId)

/-! ## Dictionary and mapper lemmas -/

theorem mem_dictInsert {m : List (String × String)} {k v : String} {e : String × String}
    (h : e ∈ dictInsert m k v) : e = (k, v) ∨ e ∈ m := by
  induction m with
  | nil => simpa [dictInsert] using h
  | cons hd tl ih =>
      by_cases hk : hd.1 = k
      · have heq : dictInsert (hd :: tl) k v = (hd.1, v) :: tl := by
          cases hd; simp_all [dictInsert]
        rw [heq] at h
        rcases List.mem_cons.mp h with h1 | h1
        · left; rw [h1, hk]
        · right; exact List.mem_cons_of_mem _ h1
      · have heq : dictInsert (hd :: tl) k v = hd :: dictInsert tl k v := by
          cases hd; simp_all [dictInsert]
        rw [heq] at h
        rcases List.mem_cons.mp h with h1 | h1
        · right; rw [h1]; exact List.mem_cons_self _ _
        · rcases ih h1 with h2 | h2
          · left; exact h2
          · right; exact List.mem_cons_of_mem _ h2

/-- Inserting the first entry carrying value `v` makes it the entry that
`keyMappedTo` reports for `v`. -/
theorem keyMappedTo_dictInsert_self {m : List (String × String)} {k v : String}
    (hm : ∀ e ∈ m, e.2 ≠ v) : keyMappedTo (dictInsert m k v) v = some k := by
  induction m with
  | nil => simp [dictInsert, keyMappedTo]
  | cons hd tl ih =>
      by_cases hk : hd.1 = k
      · have heq : dictInsert (hd :: tl) k v = (hd.1, v) :: tl := by
          cases hd; simp_all [dictInsert]
        rw [heq]
        simp [keyMappedTo, List.find?_cons_of_pos, hk]
      · have heq : dictInsert (hd :: tl) k v = hd :: dictInsert tl k v := by
          cases hd; simp_all [dictInsert]
        rw [heq]
        have hhd : hd.2 ≠ v := hm hd (List.mem_cons_self _ _)
        have htl : ∀ e ∈ tl, e.2 ≠ v := fun e he => hm e (List.mem_cons_of_mem _ he)
        have := ih htl
        simp only [keyMappedTo] at this ⊢
        rw [List.find?_cons_of_neg _ (by simpa using hhd)]
        exact this

/-- A dictionary without `v`-valued entries maps nothing to `v`. -/
theorem keyMappedTo_eq_none {m : List (String × String)} {v : String}
    (hm : ∀ e ∈ m, e.2 ≠ v) : keyMappedTo m v = none := by
  induction m with
  | nil => simp [keyMappedTo]
  | cons hd tl ih =>
      have hhd : hd.2 ≠ v := hm hd (List.mem_cons_self _ _)
      have htl : ∀ e ∈ tl, e.2 ≠ v := fun e he => hm e (List.mem_cons_of_mem _ he)
      simp only [keyMappedTo] at ih ⊢
      rw [List.find?_cons_of_neg _ (by simpa using hhd)]
      exact ih htl

/-- Updating a key other than the `v`-entry with a non-`v` value keeps the
`v`-entry in place. -/
theorem keyMappedTo_dictInsert_other {m : List (String × String)} {k c v w : String}
    (h : keyMappedTo m v = some c) (hkc : k ≠ c) (hwv : w ≠ v) :
    keyMappedTo (dictInsert m k w) v = some c := by
  induction m with
  | nil => simp [keyMappedTo] at h
  | cons hd tl ih =>
      by_cases hk : hd.1 = k
      · have heq : dictInsert (hd :: tl) k w = (hd.1, w) :: tl := by
          cases hd; simp_all [dictInsert]
        rw [heq]
        by_cases hv : hd.2 = v
        · exfalso
          simp only [keyMappedTo] at h
          rw [List.find?_cons_of_pos _ (by simpa using hv)] at h
          simp at h
          exact hkc (hk ▸ h.symm ▸ rfl)
        · simp only [keyMappedTo] at h ⊢
          rw [List.find?_cons_of_neg _ (by simpa using hv)] at h
          rw [List.find?_cons_of_neg _ (by simpa using hwv)]
          exact h
      · have heq : dictInsert (hd :: tl) k w = hd :: dictInsert tl k w := by
          cases hd; simp_all [dictInsert]
        rw [heq]
        by_cases hv : hd.2 = v
        · simp only [keyMappedTo] at h ⊢
          rw [List.find?_cons_of_pos _ (by simpa using hv)] at h ⊢
          exact h
        · simp only [keyMappedTo] at h ⊢
          rw [List.find?_cons_of_neg _ (by simpa using hv)] at h ⊢
          exact ih h

theorem hasValue_eq_false {m : List (String × String)} {v : String}
    (hm : ∀ e ∈ m, e.2 ≠ v) : hasValue m v = false := by
  simp only [hasValue, List.any_eq_false]
  intro e he
  simpa using hm e he

/-- Entries produced by the date loop: either inherited or valued
"date". -/
theorem dateStep_sub :
    ∀ (cols : List String) (m : List (String × String)) (e : String × String),
      e ∈ dateStep m cols → e ∈ m ∨ e.2 = "date" := by
  intro cols
  induction cols with
  | nil => intro m e he; exact Or.inl (by simpa [dateStep] using he)
  | cons c cs ih =>
      intro m e he
      simp only [dateStep] at he
      split at he
      · split at he
        · rcases mem_dictInsert he with h | h
          · right; rw [h]
          · left; exact h
        · split at he
          · rcases mem_dictInsert he with h | h
            · right; rw [h]
            · left; exact h
          · exact ih m e he
      · exact ih m e he

/-- Entries produced by the product loop: either inherited or valued
"product". -/
theorem productStep_sub :
    ∀ (cols : List String) (m : List (String × String)) (e : String × String),
      e ∈ productStep m cols → e ∈ m ∨ e.2 = "product" := by
  intro cols
  induction cols with
  | nil => intro m e he; exact Or.inl (by simpa [productStep] using he)
  | cons c cs ih =>
      intro m e he
      simp only [productStep] at he
      split at he
      · rcases mem_dictInsert he with h | h
        · right; rw [h]
        · left; exact h
      · split at he
        · rcases mem_dictInsert he with h | h
          · right; rw [h]
          · left; exact h
        · split at he
          · rcases mem_dictInsert he with h | h
            · right; rw [h]
            · left; exact h
          · exact ih m e he

/-- The product loop resolves to the first column satisfying any of its
three per-column tests, provided the incoming dictionary carries no
"product" value (true in `map_column_names`, where only the date loop has
run). -/
theorem productStep_eq_find :
    ∀ (cols : List String) (m : List (String × String)),
      (∀ e ∈ m, e.2 ≠ "product") →
      keyMappedTo (productStep m cols) "product" = cols.find? (fun c => prodPredB c) := by
  intro cols
  induction cols with
  | nil => intro m hm; simpa [productStep] using keyMappedTo_eq_none hm
  | cons c cs ih =>
      intro m hm
      have hval : hasValue m "product" = false := hasValue_eq_false hm
      by_cases hpr : strContains (lowerTrim c) "product"
      · rw [List.find?_cons_of_pos _ (by simp [prodPredB, hpr])]
        by_cases hnm : strContains (lowerTrim c) "name"
        · simp [productStep, hpr, hnm, keyMappedTo_dictInsert_self hm]
        · simp [productStep, hpr, hnm, hval, keyMappedTo_dictInsert_self hm]
      · by_cases hit : strContains (lowerTrim c) "item"
        · rw [List.find?_cons_of_pos _ (by simp [prodPredB, hit])]
          simp [productStep, hpr, hit, hval, keyMappedTo_dictInsert_self hm]
        · by_cases hnm : strContains (lowerTrim c) "name"
          · rw [List.find?_cons_of_pos _ (by simp [prodPredB, hnm])]
            simp [productStep, hpr, hit, hnm, hval, keyMappedTo_dictInsert_self hm]
          · rw [List.find?_cons_of_neg _ (by simp [prodPredB, hpr, hit, hnm])]
            simpa [productStep, hpr, hit, hnm] using ih m hm

/-- C1 (corrected).  The source resolves `product` in a single ordered
pass: the first column whose lowercased, trimmed name contains "product",
"item" or "name" is selected (each column is tested against the three
branch conditions before the next column is considered), so an earlier
column containing only "product" is selected over a later column
containing both "product" and "name".  The claimed tier order holds only
within a single column, not across the list. -/
theorem C1_product_single_pass (cols : List String) :
    keyMappedTo (productStep (dateStep [] cols) cols) "product" =
      cols.find? (fun c => prodPredB c) := by
  apply productStep_eq_find
  intro e he
  rcases dateStep_sub cols [] e he with h | h
  · simp at h
  · rw [h]; decide

/-- C1 counterexample to the claim as stated: with columns
`["Product ID", "Product Name"]` the mapper selects "Product ID" (the
earlier column containing only "product"), not the column containing both
"product" and "name" as the tier rule would require. -/
theorem C1_counterexample :
    keyMappedTo (mapColumnNames ["Product ID", "Product Name"]) "product" =
        some "Product ID" ∧
      keyMappedTo (mapColumnNames ["Product ID", "Product Name"]) "product" ≠
        some "Product Name" := by
  constructor
  · decide
  · decide

theorem keyMappedTo_mem {m : List (String × String)} {v k : String}
    (h : keyMappedTo m v = some k) : (k, v) ∈ m := by
  unfold keyMappedTo at h
  cases hf : m.find? (fun e => e.2 = v) with
  | none => rw [hf] at h; simp at h
  | some e =>
      rw [hf] at h
      simp only [Option.map_some'] at h
      have hp : e.2 = v := by have := List.find?_some hf; simpa using this
      have hmem := List.mem_of_find?_eq_some hf
      have : e = (k, v) := by
        cases e
        simp only [Option.some.injEq] at h
        simp_all
      rw [← this]
      exact hmem

/-- Once the region entry points at a column whose lowercased trimmed name
is exactly "region", the revenue loop cannot displace it. -/
theorem revenueStep_preserves_region {c : String} (hc : lowerTrim c = "region") :
    ∀ (cols : List String) (m : List (String × String)),
      keyMappedTo m "region" = some c →
      keyMappedTo (revenueStep m cols) "region" = some c := by
  intro cols
  induction cols with
  | nil => intro m h; simpa [revenueStep] using h
  | cons x cs ih =>
      intro m h
      simp only [revenueStep]
      split
      · next hcond =>
          refine keyMappedTo_dictInsert_other h ?_ (by decide)
          intro hx
          rw [hx, hc] at hcond
          exact absurd hcond (by decide)
      · split
        · next hcond =>
            refine keyMappedTo_dictInsert_other h ?_ (by decide)
            intro hx
            rw [hx, hc] at hcond
            simp only [Bool.and_eq_true] at hcond
            exact absurd hcond.1 (by decide)
        · split
          · next hcond =>
              refine keyMappedTo_dictInsert_other h ?_ (by decide)
              intro hx
              rw [hx, hc] at hcond
              simp only [Bool.and_eq_true] at hcond
              exact absurd hcond.1 (by decide)
          · exact ih m h

/-- Same for the quantity loop. -/
theorem quantityStep_preserves_region {c : String} (hc : lowerTrim c = "region") :
    ∀ (cols : List String) (m : List (String × String)),
      keyMappedTo m "region" = some c →
      keyMappedTo (quantityStep m cols) "region" = some c := by
  intro cols
  induction cols with
  | nil => intro m h; simpa [quantityStep] using h
  | cons x cs ih =>
      intro m h
      simp only [quantityStep]
      split
      · next hcond =>
          refine keyMappedTo_dictInsert_other h ?_ (by decide)
          intro hx
          rw [hx, hc] at hcond
          exact absurd hcond (by decide)
      · split
        · next hcond =>
            refine keyMappedTo_dictInsert_other h ?_ (by decide)
            intro hx
            rw [hx, hc] at hcond
            exact absurd hcond (by decide)
        · exact ih m h

/-- Inserting a value other than "region" preserves the invariant that
every region-valued entry names a column containing "region". -/
theorem regionInv_dictInsert {m : List (String × String)} {k w : String}
    (hm : ∀ e ∈ m, e.2 = "region" → strContains (lowerTrim e.1) "region" = true)
    (hw : w ≠ "region") :
    ∀ e ∈ dictInsert m k w, e.2 = "region" → strContains (lowerTrim e.1) "region" = true := by
  intro e he hv
  rcases mem_dictInsert he with h | h
  · rw [h] at hv; exact absurd hv hw
  · exact hm e h hv

theorem revenueStep_regionInv :
    ∀ (cols : List String) (m : List (String × String)),
      (∀ e ∈ m, e.2 = "region" → strContains (lowerTrim e.1) "region" = true) →
      ∀ e ∈ revenueStep m cols, e.2 = "region" → strContains (lowerTrim e.1) "region" = true := by
  intro cols
  induction cols with
  | nil => intro m hm; simpa [revenueStep] using hm
  | cons x cs ih =>
      intro m hm
      simp only [revenueStep]
      split
      · exact regionInv_dictInsert hm (by decide)
      · split
        · exact regionInv_dictInsert hm (by decide)
        · split
          · exact regionInv_dictInsert hm (by decide)
          · exact ih m hm

theorem quantityStep_regionInv :
    ∀ (cols : List String) (m : List (String × String)),
      (∀ e ∈ m, e.2 = "region" → strContains (lowerTrim e.1) "region" = true) →
      ∀ e ∈ quantityStep m cols, e.2 = "region" → strContains (lowerTrim e.1) "region" = true := by
  intro cols
  induction cols with
  | nil => intro m hm; simpa [quantityStep] using hm
  | cons x cs ih =>
      intro m hm
      simp only [quantityStep]
      split
      · exact regionInv_dictInsert hm (by decide)
      · split
        · exact regionInv_dictInsert hm (by decide)
        · exact ih m hm

/-- C2 (confirmed).  For every column list: a column whose lowercased
trimmed name is exactly "region" is mapped to the canonical field
`region` ahead of any column merely containing "region"; and whenever some
column contains "region" as a substring, whatever column the final mapping
assigns to `region` itself contains "region" — in particular a column
exactly named "state" or "country" is used only when no column contains
"region" at all. -/
theorem C2_region_exact_first (cols : List String) :
    (∀ c, cols.find? (fun x => lowerTrim x = "region") = some c →
        keyMappedTo (mapColumnNames cols) "region" = some c) ∧
      ((cols.find? (fun x => strContains (lowerTrim x) "region")).isSome →
        ∀ k, keyMappedTo (mapColumnNames cols) "region" = some k →
          strContains (lowerTrim k) "region" = true) := by
  have hm1 : ∀ e ∈ productStep (dateStep [] cols) cols, e.2 ≠ "region" := by
    intro e he
    rcases productStep_sub cols (dateStep [] cols) e he with h | h
    · rcases dateStep_sub cols [] e h with h2 | h2
      · simp at h2
      · rw [h2]; decide
    · rw [h]; decide
  constructor
  · intro c hfind
    have hc : lowerTrim c = "region" := by have := List.find?_some hfind; simpa using this
    have hreg : keyMappedTo (regionStep (productStep (dateStep [] cols) cols) cols) "region" =
        some c := by
      simp [regionStep, hfind, keyMappedTo_dictInsert_self hm1]
    exact quantityStep_preserves_region hc cols _
      (revenueStep_preserves_region hc cols _ hreg)
  · intro hsome k hk
    have hinv : ∀ e ∈ regionStep (productStep (dateStep [] cols) cols) cols,
        e.2 = "region" → strContains (lowerTrim e.1) "region" = true := by
      cases hfe : cols.find? (fun x => lowerTrim x = "region") with
      | some c =>
          have hc : lowerTrim c = "region" := by have := List.find?_some hfe; simpa using this
          simp only [regionStep, hfe]
          intro e he hv
          rcases mem_dictInsert he with h | h
          · rw [h]
            simp only
            rw [hc]
            decide
          · exact absurd hv (hm1 e h)
      | none =>
          cases hfc : cols.find? (fun x => strContains (lowerTrim x) "region") with
          | some c =>
              have hc : strContains (lowerTrim c) "region" = true := by
                have := List.find?_some hfc
                simpa using this
              simp only [regionStep, hfe, hfc]
              intro e he hv
              rcases mem_dictInsert he with h | h
              · rw [h]; simpa using hc
              · exact absurd hv (hm1 e h)
          | none =>
              rw [hfc] at hsome
              simp at hsome
    exact quantityStep_regionInv cols _ (revenueStep_regionInv cols _ hinv) (k, "region")
      (keyMappedTo_mem hk) rfl

/-- Witness for C2 at the column list `["Sales Region", "Region", "State"]`:
the exact-match column "Region" wins over the earlier partial match, and
the mapped column contains "region". -/
theorem C2_region_exact_first_witness :
    keyMappedTo (mapColumnNames ["Sales Region", "Region", "State"]) "region" =
        some "Region" ∧
      strContains (lowerTrim "Region") "region" = true := by
  refine ⟨(C2_region_exact_first ["Sales Region", "Region", "State"]).1 "Region" (by decide), ?_⟩
  exact (C2_region_exact_first ["Sales Region", "Region", "State"]).2 (by decide) "Region"
    ((C2_region_exact_first ["Sales Region", "Region", "State"]).1 "Region" (by decide))

/-! ## DataCleaner claims -/

/-- C3 counterexample: on a table carrying one missing value,
`handle_missing_values` with the unrecognized strategy name
"invalid_strategy" returns the table unchanged instead of failing: the
dispatch has no failure branch at all (its return type in this embedding
is a table, not a fallible result), contradicting the claimed
`ConfigurationError`. -/
theorem C3_counterexample :
    countMissing ⟨[("x", DType.num)], [[Value.na]]⟩ = 1 ∧
      handleMissingValues ⟨[("x", DType.num)], [[Value.na]]⟩ "invalid_strategy" =
        ⟨[("x", DType.num)], [[Value.na]]⟩ := by
  constructor
  · decide
  · decide

/-- C3 (corrected): an unrecognized strategy name is a silent no-op.  For
every table, `handle_missing_values` with a strategy other than `fill`,
`drop`, `interpolate` returns the table unchanged (when missing values are
present, as the value-equal copy `df_cleaned`); no error of any kind is
raised. -/
theorem C3_unknown_strategy_noop (df : Table) (s : String)
    (h1 : s ≠ "drop") (h2 : s ≠ "fill") (h3 : s ≠ "interpolate") :
    handleMissingValues df s = df := by
  simp only [handleMissingValues, handleBody, if_neg h1, if_neg h2, if_neg h3, ite_self]

/-- Witness for C3 at a one-cell table with a missing value and strategy
"bogus". -/
theorem C3_unknown_strategy_noop_witness :
    handleMissingValues ⟨[("x", DType.num)], [[Value.na]]⟩ "bogus" =
      ⟨[("x", DType.num)], [[Value.na]]⟩ :=
  C3_unknown_strategy_noop _ _ (by decide) (by decide) (by decide)

/-- C10 (confirmed): a table without missing values is returned unchanged
by `handle_missing_values` for every strategy string, recognized or not,
because the `initial_missing == 0` early return fires before the strategy
is examined. -/
theorem C10_no_missing_short_circuit (df : Table) (s : String)
    (h : countMissing df = 0) : handleMissingValues df s = df := by
  unfold handleMissingValues
  rw [if_pos h]

/-- Witness for C10: a complete table with a nonsense strategy string. -/
theorem C10_no_missing_short_circuit_witness :
    handleMissingValues ⟨[("x", DType.num)], [[Value.num 1]]⟩ "definitely_not_a_strategy" =
      ⟨[("x", DType.num)], [[Value.num 1]]⟩ :=
  C10_no_missing_short_circuit _ _ (by decide)

/-- C9 (confirmed): in the object-level embedding, none of the cited
operations writes to the object the caller passed in: `remove_duplicates`
and `DataAnalyzer.__init__` only allocate, and `fix_data_types` and
`handle_missing_values` write only to the freshly allocated copy, so the
caller reads its table unchanged after every call. -/
theorem C9_no_caller_mutation (h : PyHeap) (dfId : Nat) (s : String)
    (hlt : dfId < h.next) :
    heapRead (removeDuplicatesSt h dfId).1 dfId = heapRead h dfId ∧
      heapRead (fixDataTypesSt h dfId).1 dfId = heapRead h dfId ∧
      heapRead (handleMissingValuesSt h dfId s).1 dfId = heapRead h dfId ∧
      heapRead (analyzerInitSt h dfId).1 dfId = heapRead h dfId := by
  have hne : dfId ≠ h.next := Nat.ne_of_lt hlt
  refine ⟨?_, ?_, ?_, ?_⟩
  · simp [removeDuplicatesSt, heapAlloc, heapRead, hne]
  · simp [fixDataTypesSt, heapAlloc, heapWrite, heapRead, hne]
  · unfold handleMissingValuesSt
    split
    · rfl
    · simp [heapAlloc, heapWrite, heapRead, hne]
  · simp [analyzerInitSt, heapAlloc, heapRead, hne]

/-- Witness for C9 on a one-object heap. -/
theorem C9_no_caller_mutation_witness :
    heapRead (removeDuplicatesSt ⟨1, fun _ => ⟨[], []⟩⟩ 0).1 0 =
        heapRead (⟨1, fun _ => ⟨[], []⟩⟩ : PyHeap) 0 ∧
      heapRead (fixDataTypesSt ⟨1, fun _ => ⟨[], []⟩⟩ 0).1 0 =
        heapRead (⟨1, fun _ => ⟨[], []⟩⟩ : PyHeap) 0 ∧
      heapRead (handleMissingValuesSt ⟨1, fun _ => ⟨[], []⟩⟩ 0 "fill").1 0 =
        heapRead (⟨1, fun _ => ⟨[], []⟩⟩ : PyHeap) 0 ∧
      heapRead (analyzerInitSt ⟨1, fun _ => ⟨[], []⟩⟩ 0).1 0 =
        heapRead (⟨1, fun _ => ⟨[], []⟩⟩ : PyHeap) 0 :=
  C9_no_caller_mutation ⟨1, fun _ => ⟨[], []⟩⟩ 0 "fill" (by decide)

/-! ## Deduplication lemmas -/

theorem mem_of_mem_dedupAux {α : Type} [DecidableEq α] :
    ∀ (l seen : List α) (a : α), a ∈ dedupAux seen l → a ∈ l := by
  intro l
  induction l with
  | nil => intro seen a h; simp [dedupAux] at h
  | cons r rs ih =>
      intro seen a h
      simp only [dedupAux] at h
      split at h
      · exact List.mem_cons_of_mem _ (ih seen a h)
      · rcases List.mem_cons.mp h with h1 | h1
        · rw [h1]; exact List.mem_cons_self _ _
        · exact List.mem_cons_of_mem _ (ih (r :: seen) a h1)

theorem not_mem_seen_of_mem_dedupAux {α : Type} [DecidableEq α] :
    ∀ (l seen : List α) (a : α), a ∈ dedupAux seen l → a ∉ seen := by
  intro l
  induction l with
  | nil => intro seen a h; simp [dedupAux] at h
  | cons r rs ih =>
      intro seen a h
      simp only [dedupAux] at h
      split at h
      · exact ih seen a h
      · next hr =>
          rcases List.mem_cons.mp h with h1 | h1
          · rw [h1]; exact hr
          · intro hs
            exact ih (r :: seen) a h1 (List.mem_cons_of_mem _ hs)

theorem dedupAux_nodup {α : Type} [DecidableEq α] :
    ∀ (l seen : List α), (dedupAux seen l).Nodup := by
  intro l
  induction l with
  | nil => intro seen; simp [dedupAux]
  | cons r rs ih =>
      intro seen
      simp only [dedupAux]
      split
      · exact ih seen
      · refine List.nodup_cons.mpr ⟨?_, ih (r :: seen)⟩
        intro hmem
        exact not_mem_seen_of_mem_dedupAux rs (r :: seen) r hmem (List.mem_cons_self _ _)

theorem dedupAux_eq_self {α : Type} [DecidableEq α] :
    ∀ (l seen : List α), l.Nodup → (∀ a ∈ l, a ∉ seen) → dedupAux seen l = l := by
  intro l
  induction l with
  | nil => intro seen _ _; rfl
  | cons r rs ih =>
      intro seen hnd hdis
      have hr : r ∉ seen := hdis r (List.mem_cons_self _ _)
      simp only [dedupAux, if_neg hr]
      congr 1
      refine ih (r :: seen) (List.nodup_cons.mp hnd).2 ?_
      intro a ha
      intro hmem
      rcases List.mem_cons.mp hmem with h1 | h1
      · exact (List.nodup_cons.mp hnd).1 (h1 ▸ ha)
      · exact hdis a (List.mem_cons_of_mem _ ha) h1

/-- `drop_duplicates` is idempotent. -/
theorem removeDuplicates_idem (t : Table) :
    removeDuplicates (removeDuplicates t) = removeDuplicates t := by
  simp only [removeDuplicates]
  congr 1
  exact dedupAux_eq_self _ [] (dedupAux_nodup _ _) (by intro a _ h; simp at h)

theorem countMissing_eq_zero_iff (t : Table) :
    countMissing t = 0 ↔ ∀ r ∈ t.rows, countNaRow r = 0 := by
  simp only [countMissing, List.sum_eq_zero_iff, List.mem_map]
  constructor
  · intro h r hr; exact h _ ⟨r, hr, rfl⟩
  · rintro h x ⟨r, hr, rfl⟩; exact h r hr

/-! ## Type-fixing identity lemmas -/

theorem modAt_eq_self {α : Type} (d : α) (f : α → α) :
    ∀ (l : List α) (j : Nat), f (l.getD j d) = l.getD j d → modAt j f l = l := by
  intro l
  induction l with
  | nil => intro j _; cases j <;> rfl
  | cons a as ih =>
      intro j h
      cases j with
      | zero => simpa [modAt] using h
      | succ n =>
          simp only [modAt, List.cons.injEq, true_and]
          exact ih n (by simpa using h)

theorem map_eq_self_of {α : Type} :
    ∀ (l : List α) (f : α → α), (∀ a ∈ l, f a = a) → l.map f = l := by
  intro l
  induction l with
  | nil => intro f _; rfl
  | cons a as ih =>
      intro f h
      simp only [List.map_cons, List.cons.injEq]
      exact ⟨h a (List.mem_cons_self _ _), ih f (fun x hx => h x (List.mem_cons_of_mem _ hx))⟩

theorem colIdx?_spec :
    ∀ (hs : List (String × DType)) (name : String) (j : Nat),
      colIdx? hs name = some j →
      j < hs.length ∧ (hs.getD j ("", DType.obj)).1 = name := by
  intro hs
  induction hs with
  | nil => intro name j h; simp [colIdx?] at h
  | cons hd rest ih =>
      intro name j h
      simp only [colIdx?] at h
      split at h
      · next heq =>
          simp only [Option.some.injEq] at h
          subst h
          exact ⟨Nat.succ_pos _, heq⟩
      · rcases Option.map_eq_some'.mp h with ⟨j', hj', rfl⟩
        rcases ih name j' hj' with ⟨hlt, hname⟩
        exact ⟨Nat.succ_lt_succ hlt, by simpa using hname⟩

theorem toDatetimeCell_id {v : Value} (h : cellIsDT v = true) : toDatetimeCell v = v := by
  cases v <;> simp_all [cellIsDT, toDatetimeCell]

theorem toNumericCell_id {v : Value} (h : cellIsNum v = true) : toNumericCell v = v := by
  cases v <;> simp_all [cellIsNum, toNumericCell]

theorem astypeStrCell_id {v : Value} (h : cellIsStr v = true) : astypeStrCell v = v := by
  cases v <;> simp_all [cellIsStr, astypeStrCell]

/-- A cast application is the identity when the targeted column already has
the target dtype and cells fixed by the cast. -/
theorem applyCastAt_eq_self (t : Table) (name : String) (dty : DType) (f : Value → Value)
    (h : ∀ j, colIdx t name = some j →
      dtypeAt t j = dty ∧ ∀ r ∈ t.rows, f (cellAt r j) = cellAt r j) :
    applyCastAt t name dty f = t := by
  unfold applyCastAt
  cases hc : colIdx t name with
  | none => rfl
  | some j =>
      obtain ⟨hd, hcells⟩ := h j hc
      show setDType (mapColCells t j f) j dty = t
      have hmap : mapColCells t j f = t := by
        simp only [mapColCells]
        have : t.rows.map (modAt j f) = t.rows := by
          refine map_eq_self_of _ _ ?_
          intro r hr
          exact modAt_eq_self Value.na f r j (hcells r hr)
        rw [this]
      rw [hmap]
      simp only [setDType]
      have : modAt j (fun h => (h.1, dty)) t.header = t.header := by
        refine modAt_eq_self ("", DType.obj) _ t.header j ?_
        have : (t.header.getD j ("", DType.obj)).2 = dty := hd
        cases hget : t.header.getD j ("", DType.obj)
        simp_all [dtypeAt]
      rw [this]

/-- Extraction of the per-column facts packed into `wellTypedB`. -/
theorem wellTypedB_branch {t : Table} (h : wellTypedB t = true) {j : Nat}
    (hj : j < t.header.length) :
    (((t.header.getD j ("", DType.obj)).1 = "date" →
        dtypeAt t j = DType.dt ∧ (colVals t j).all cellIsDT = true) ∧
      (((t.header.getD j ("", DType.obj)).1 = "revenue" ∨
          (t.header.getD j ("", DType.obj)).1 = "quantity") →
        dtypeAt t j = DType.num ∧ (colVals t j).all cellIsNum = true) ∧
      (((t.header.getD j ("", DType.obj)).1 = "product" ∨
          (t.header.getD j ("", DType.obj)).1 = "region") →
        dtypeAt t j = DType.obj ∧ (colVals t j).all cellIsStr = true)) := by
  have hmem : j ∈ List.range t.header.length := List.mem_range.mpr hj
  unfold wellTypedB at h
  have hb := List.all_eq_true.mp h j hmem
  simp only at hb
  refine ⟨?_, ?_, ?_⟩
  · intro hname
    rw [if_pos hname] at hb
    simpa [Bool.and_eq_true, decide_eq_true_eq] using hb
  · intro hname
    have hnd : ¬((t.header.getD j ("", DType.obj)).1 = "date") := by
      rcases hname with h1 | h1 <;> rw [h1] <;> decide
    rw [if_neg hnd, if_pos hname] at hb
    simpa [Bool.and_eq_true, decide_eq_true_eq] using hb
  · intro hname
    have hnd : ¬((t.header.getD j ("", DType.obj)).1 = "date") := by
      rcases hname with h1 | h1 <;> rw [h1] <;> decide
    have hnr : ¬((t.header.getD j ("", DType.obj)).1 = "revenue" ∨
        (t.header.getD j ("", DType.obj)).1 = "quantity") := by
      rcases hname with h1 | h1 <;> rw [h1] <;> simp
    rw [if_neg hnd, if_neg hnr, if_pos hname] at hb
    simpa [Bool.and_eq_true, decide_eq_true_eq] using hb

theorem fixDataTypes_eq_of_wellTyped (t : Table) (h : wellTypedB t = true) :
    fixDataTypes t = t := by
  have hcast : ∀ (name : String) (dty : DType) (f : Value → Value) (p : Value → Bool),
      (∀ j, j < t.header.length → (t.header.getD j ("", DType.obj)).1 = name →
        dtypeAt t j = dty ∧ (colVals t j).all p = true) →
      (∀ v, p v = true → f v = v) →
      applyCastAt t name dty f = t := by
    intro name dty f p hcols hf
    apply applyCastAt_eq_self
    intro j hc
    obtain ⟨hlt, hname⟩ := colIdx?_spec t.header name j hc
    obtain ⟨hd, hall⟩ := hcols j hlt hname
    refine ⟨hd, ?_⟩
    intro r hr
    apply hf
    refine List.all_eq_true.mp hall _ ?_
    unfold colVals
    exact List.mem_map_of_mem _ hr
  have hdate : applyCastAt t "date" DType.dt toDatetimeCell = t := by
    refine hcast _ _ _ cellIsDT ?_ (fun v hv => toDatetimeCell_id hv)
    intro j hj hname
    exact (wellTypedB_branch h hj).1 hname
  have hrev : applyCastAt t "revenue" DType.num toNumericCell = t := by
    refine hcast _ _ _ cellIsNum ?_ (fun v hv => toNumericCell_id hv)
    intro j hj hname
    exact (wellTypedB_branch h hj).2.1 (Or.inl hname)
  have hqty : applyCastAt t "quantity" DType.num toNumericCell = t := by
    refine hcast _ _ _ cellIsNum ?_ (fun v hv => toNumericCell_id hv)
    intro j hj hname
    exact (wellTypedB_branch h hj).2.1 (Or.inr hname)
  have hprod : applyCastAt t "product" DType.obj astypeStrCell = t := by
    refine hcast _ _ _ cellIsStr ?_ (fun v hv => astypeStrCell_id hv)
    intro j hj hname
    exact (wellTypedB_branch h hj).2.2 (Or.inl hname)
  have hreg : applyCastAt t "region" DType.obj astypeStrCell = t := by
    refine hcast _ _ _ cellIsStr ?_ (fun v hv => astypeStrCell_id hv)
    intro j hj hname
    exact (wellTypedB_branch h hj).2.2 (Or.inr hname)
  simp only [fixDataTypes]
  simp only [hdate, hrev, hqty, hprod, hreg]

/-- Well-typedness survives dropping rows (in particular deduplication). -/
theorem wellTypedB_of_rows_subset (t t' : Table) (hh : t'.header = t.header)
    (hrows : ∀ r ∈ t'.rows, r ∈ t.rows) (h : wellTypedB t = true) :
    wellTypedB t' = true := by
  unfold wellTypedB at h ⊢
  rw [List.all_eq_true] at h ⊢
  intro j hj
  rw [List.mem_range, hh] at hj
  have hb := h j (List.mem_range.mpr hj)
  simp only at hb ⊢
  have e1 : t'.header.getD j ("", DType.obj) = t.header.getD j ("", DType.obj) := by rw [hh]
  have e2 : dtypeAt t' j = dtypeAt t j := by unfold dtypeAt; rw [hh]
  have hsub : ∀ (p : Value → Bool), (colVals t j).all p = true →
      (colVals t' j).all p = true := by
    intro p hp
    rw [List.all_eq_true] at hp ⊢
    intro v hv
    unfold colVals at hv
    rcases List.mem_map.mp hv with ⟨r, hr, rfl⟩
    refine hp _ ?_
    unfold colVals
    exact List.mem_map_of_mem _ (hrows r hr)
  rw [e1, e2]
  by_cases hc1 : (t.header.getD j ("", DType.obj)).1 = "date"
  · rw [if_pos hc1] at hb ⊢
    rw [Bool.and_eq_true] at hb ⊢
    exact ⟨hb.1, hsub _ hb.2⟩
  · rw [if_neg hc1] at hb ⊢
    by_cases hc2 : (t.header.getD j ("", DType.obj)).1 = "revenue" ∨
        (t.header.getD j ("", DType.obj)).1 = "quantity"
    · rw [if_pos hc2] at hb ⊢
      rw [Bool.and_eq_true] at hb ⊢
      exact ⟨hb.1, hsub _ hb.2⟩
    · rw [if_neg hc2] at hb ⊢
      by_cases hc3 : (t.header.getD j ("", DType.obj)).1 = "product" ∨
          (t.header.getD j ("", DType.obj)).1 = "region"
      · rw [if_pos hc3] at hb ⊢
        rw [Bool.and_eq_true] at hb ⊢
        exact ⟨hb.1, hsub _ hb.2⟩
      · rw [if_neg hc3]

theorem handleMissingValues_no_missing (df : Table) (s : String)
    (h : countMissing df = 0) : handleMissingValues df s = df := by
  unfold handleMissingValues
  rw [if_pos h]

/-- C5 counterexample: on the table with a single `revenue` column holding
the rows `[2]` and `[missing]`, `clean_all("fill")` first deduplicates (no
duplicates), then fills the missing cell with the column median 2, which
makes the two rows equal — so a subsequent `remove_duplicates` removes one
more row, refuting the claim for arbitrary tables. -/
theorem C5_counterexample :
    (cleanAll ⟨[("revenue", DType.num)], [[Value.num 2], [Value.na]]⟩ "fill").rows.length = 2 ∧
      (removeDuplicates
        (cleanAll ⟨[("revenue", DType.num)], [[Value.num 2], [Value.na]]⟩ "fill")).rows.length
        = 1 := by
  constructor
  · decide
  · decide

/-- C5 (corrected): running `remove_duplicates` after `clean_all(strategy)`
removes zero additional rows **provided** the input table is already
type-normalized (`wellTypedB`) and complete (no missing cells); then the
cleaning stages after deduplication are the identity and deduplication is
idempotent.  For general tables the claim fails because type coercion and
median/mode filling can make rows that were distinct before cleaning equal
afterwards. -/
theorem C5_clean_then_dedup (df : Table) (s : String)
    (hw : wellTypedB df = true) (hm : countMissing df = 0) :
    removeDuplicates (cleanAll df s) = cleanAll df s := by
  have hrd_sub : ∀ r ∈ (removeDuplicates df).rows, r ∈ df.rows := by
    intro r hr
    exact mem_of_mem_dedupAux _ _ _ hr
  have h2 : wellTypedB (removeDuplicates df) = true :=
    wellTypedB_of_rows_subset df _ rfl hrd_sub hw
  have h1 : countMissing (removeDuplicates df) = 0 :=
    (countMissing_eq_zero_iff _).mpr
      (fun r hr => (countMissing_eq_zero_iff df).mp hm r (hrd_sub r hr))
  have h4 : cleanAll df s = removeDuplicates df := by
    unfold cleanAll
    rw [fixDataTypes_eq_of_wellTyped _ h2]
    exact handleMissingValues_no_missing _ _ h1
  rw [h4]
  exact removeDuplicates_idem df

/-- Witness for C5 on a well-typed, complete table. -/
theorem C5_clean_then_dedup_witness :
    removeDuplicates (cleanAll
        ⟨[("revenue", DType.num), ("product", DType.obj)],
          [[Value.num 5, Value.str "A"]]⟩ "fill") =
      cleanAll ⟨[("revenue", DType.num), ("product", DType.obj)],
        [[Value.num 5, Value.str "A"]]⟩ "fill" :=
  C5_clean_then_dedup _ _ (by decide) (by decide)

/-! ## Summation and grouping lemmas -/

theorem foldr_qAdd_eq_sum : ∀ qs : List ℚ, qs.foldr qAdd 0 = qs.sum := by
  intro qs
  induction qs with
  | nil => rfl
  | cons q rest ih => simp [List.foldr_cons, qAdd_eq, ih]

theorem sumQ_eq_sum (l : List Value) : sumQ l = (numsOf l).sum := by
  unfold sumQ
  exact foldr_qAdd_eq_sum _

theorem sumQ_cons (v : Value) (l : List Value) :
    sumQ (v :: l) = (numOf? v).getD 0 + sumQ l := by
  rw [sumQ_eq_sum, sumQ_eq_sum]
  unfold numsOf
  cases hv : numOf? v <;> simp [List.filterMap_cons, hv]

theorem sumQ_split {α : Type} (p : α → Bool) :
    ∀ pairs : List (α × Value),
      sumQ (pairs.map (fun x => x.2)) =
        sumQ ((pairs.filter (fun x => p x.1)).map (fun x => x.2)) +
          sumQ ((pairs.filter (fun x => !(p x.1))).map (fun x => x.2)) := by
  intro pairs
  induction pairs with
  | nil => simp [sumQ, numsOf]
  | cons a ps ih =>
      by_cases hp : p a.1 = true
      · simp only [List.map_cons, List.filter_cons, hp, Bool.not_true, if_true, if_false,
          Bool.false_eq_true, sumQ_cons, ih]
        ring
      · have hp' : p a.1 = false := by simpa using hp
        simp only [List.map_cons, List.filter_cons, hp', Bool.not_false, if_true, if_false,
          Bool.false_eq_true, sumQ_cons, ih]
        ring

theorem filterMap_sel {κ : Type} [DecidableEq κ] (k : κ) :
    ∀ pairs : List (Option κ × Value),
      pairs.filterMap (fun p => if p.1 = some k then some p.2 else none) =
        (pairs.filter (fun p => decide (p.1 = some k))).map (fun p => p.2) := by
  intro pairs
  induction pairs with
  | nil => rfl
  | cons a ps ih =>
      by_cases h : a.1 = some k <;>
        simp [List.filterMap_cons, List.filter_cons, h, ih]

theorem filterMap_sel_ne {κ : Type} [DecidableEq κ] (k k' : κ) (hne : k' ≠ k) :
    ∀ pairs : List (Option κ × Value),
      (pairs.filter (fun p => !(decide (p.1 = some k)))).filterMap
          (fun p => if p.1 = some k' then some p.2 else none) =
        pairs.filterMap (fun p => if p.1 = some k' then some p.2 else none) := by
  intro pairs
  induction pairs with
  | nil => rfl
  | cons a ps ih =>
      by_cases h : a.1 = some k
      · have hne' : ¬(k = k') := fun hc => hne hc.symm
        simp [List.filter_cons, List.filterMap_cons, h, hne', ih]
      · simp [List.filter_cons, List.filterMap_cons, h, ih]

/-- Grouping is sum-preserving: over any key list that is duplicate-free
and covers every pair, the group sums add up to the total. -/
theorem sum_groups {κ : Type} [DecidableEq κ] :
    ∀ (ks : List κ) (pairs : List (Option κ × Value)), ks.Nodup →
      (∀ p ∈ pairs, ∃ k, p.1 = some k ∧ k ∈ ks) →
      (ks.map (fun k => sumQ (pairs.filterMap
          (fun p => if p.1 = some k then some p.2 else none)))).sum =
        sumQ (pairs.map (fun p => p.2)) := by
  intro ks
  induction ks with
  | nil =>
      intro pairs _ hcov
      have hnil : pairs = [] := by
        cases pairs with
        | nil => rfl
        | cons p ps =>
            obtain ⟨k, _, hk⟩ := hcov p (List.mem_cons_self _ _)
            simp at hk
      subst hnil
      simp [sumQ, numsOf]
  | cons k ks ih =>
      intro pairs hnd hcov
      rw [List.map_cons, List.sum_cons, filterMap_sel k pairs]
      have hmapeq : ks.map (fun k' => sumQ (pairs.filterMap
          (fun p => if p.1 = some k' then some p.2 else none))) =
          ks.map (fun k' => sumQ ((pairs.filter
            (fun p => !(decide (p.1 = some k)))).filterMap
              (fun p => if p.1 = some k' then some p.2 else none))) := by
        refine List.map_congr_left ?_
        intro k' hk'
        have hne : k' ≠ k := fun he => (List.nodup_cons.mp hnd).1 (he ▸ hk')
        rw [filterMap_sel_ne k k' hne pairs]
      rw [hmapeq]
      rw [ih _ (List.nodup_cons.mp hnd).2 ?_]
      · rw [sumQ_split (fun o => decide (o = some k)) pairs]
      · intro p hp
        obtain ⟨k0, h1, h2⟩ := hcov p (List.mem_of_mem_filter hp)
        refine ⟨k0, h1, ?_⟩
        rcases List.mem_cons.mp h2 with h3 | h3
        · exfalso
          have := List.of_mem_filter hp
          simp only [Bool.not_eq_true', decide_eq_false_iff_not] at this
          exact this (h1.trans (by rw [h3]))
        · exact h3

theorem mem_dedupAux_of_mem {α : Type} [DecidableEq α] :
    ∀ (l seen : List α) (a : α), a ∈ l → a ∉ seen → a ∈ dedupAux seen l := by
  intro l
  induction l with
  | nil => intro seen a h _; simp at h
  | cons r rs ih =>
      intro seen a hmem hns
      simp only [dedupAux]
      split
      · next hr =>
          rcases List.mem_cons.mp hmem with h1 | h1
          · exact absurd (h1 ▸ hr) hns
          · exact ih seen a h1 hns
      · rcases List.mem_cons.mp hmem with h1 | h1
        · rw [h1]; exact List.mem_cons_self _ _
        · by_cases har : a = r
          · rw [har]; exact List.mem_cons_self _ _
          · refine List.mem_cons_of_mem _ (ih (r :: seen) a h1 ?_)
            intro hc
            rcases List.mem_cons.mp hc with h2 | h2
            · exact har h2
            · exact hns h2

theorem insertByLE_perm {α : Type} (le : α → α → Bool) (a : α) :
    ∀ l : List α, (insertByLE le a l).Perm (a :: l) := by
  intro l
  induction l with
  | nil => simp [insertByLE]
  | cons x xs ih =>
      simp only [insertByLE]
      split
      · exact List.Perm.refl _
      · exact (List.Perm.cons x ih).trans (List.Perm.swap _ _ _)

theorem sortByLE_perm {α : Type} (le : α → α → Bool) :
    ∀ l : List α, (sortByLE le l).Perm l := by
  intro l
  induction l with
  | nil => exact List.Perm.refl _
  | cons x xs ih =>
      have : sortByLE le (x :: xs) = insertByLE le x (sortByLE le xs) := rfl
      rw [this]
      exact (insertByLE_perm le x _).trans (List.Perm.cons x ih)

/-- The total of the group sums produced by `groupbySum` equals the sum of
all values, whenever no key is missing. -/
theorem groupbySum_sum {κ : Type} [DecidableEq κ] (le : κ → κ → Bool)
    (pairs : List (Option κ × Value)) (hkeys : ∀ p ∈ pairs, p.1 ≠ none) :
    ((groupbySum le pairs).map (fun g => g.2)).sum = sumQ (pairs.map (fun p => p.2)) := by
  unfold groupbySum
  rw [List.map_map]
  have hcomp : ((fun g : κ × ℚ => g.2) ∘ (fun k => (k, sumQ (pairs.filterMap
      (fun p => if p.1 = some k then some p.2 else none))))) =
      fun k => sumQ (pairs.filterMap (fun p => if p.1 = some k then some p.2 else none)) := rfl
  rw [hcomp]
  have hperm := (sortByLE_perm le (dedupAux [] (pairs.filterMap Prod.fst))).map
    (fun k => sumQ (pairs.filterMap (fun p => if p.1 = some k then some p.2 else none)))
  rw [hperm.sum_eq]
  refine sum_groups _ pairs (dedupAux_nodup _ _) ?_
  intro p hp
  cases hp1 : p.1 with
  | none => exact absurd hp1 (hkeys p hp)
  | some k =>
      refine ⟨k, rfl, ?_⟩
      refine mem_dedupAux_of_mem _ _ _ ?_ (by simp)
      exact List.mem_filterMap.mpr ⟨p, hp, hp1⟩

theorem colIdx?_isSome_of_any :
    ∀ (hs : List (String × DType)) (name : String),
      hs.any (fun h => h.1 = name) = true → ∃ j, colIdx? hs name = some j := by
  intro hs
  induction hs with
  | nil => intro name h; simp at h
  | cons hd rest ih =>
      intro name h
      by_cases hn : hd.1 = name
      · exact ⟨0, by simp [colIdx?, hn]⟩
      · have : rest.any (fun h => h.1 = name) = true := by
          simp only [List.any_cons, Bool.or_eq_true] at h
          rcases h with h | h
          · exact absurd (by simpa using h) hn
          · exact h
        obtain ⟨j, hj⟩ := ih name this
        exact ⟨j + 1, by simp [colIdx?, hn, hj]⟩

/-- C6 counterexample: on a table whose single row has a missing region
and revenue 50, `calculate_total_revenue` returns 50 while
`get_region_wise_revenue` returns an empty table (`groupby` drops missing
keys), whose `total_revenue` column sums to 0. -/
theorem C6_counterexample :
    calculateTotalRevenue
        ⟨[("region", DType.obj), ("revenue", DType.num)], [[Value.na, Value.num 50]]⟩ =
        Except.ok 50 ∧
      getRegionWiseRevenue
        ⟨[("region", DType.obj), ("revenue", DType.num)], [[Value.na, Value.num 50]]⟩ =
        Except.ok [] ∧
      (([] : List (Value × ℚ)).map (fun g => g.2)).sum ≠ (50 : ℚ) := by
  refine ⟨by decide, by decide, by decide⟩

/-- C6 (corrected): for every table with `region` and `revenue` columns in
which no region cell is missing (and revenue cells are numeric or
missing — the summation model covers finite values),
`calculate_total_revenue` equals the sum of the `total_revenue` values of
`get_region_wise_revenue`: grouping by region partitions the rows and
preserves revenue.  Without the no-missing-region condition the equation
fails, because `groupby` silently drops rows whose key is missing. -/
theorem C6_total_eq_region_sum (t : Table)
    (hreg : hasCol t "region" = true) (hrev : hasCol t "revenue" = true)
    (hnona : ∀ v ∈ colValsByName t "region", v ≠ Value.na)
    (_hfin : ∀ v ∈ colValsByName t "revenue", cellIsNum v = true) :
    ∃ (total : ℚ) (rws : List (Value × ℚ)),
      calculateTotalRevenue t = Except.ok total ∧
        getRegionWiseRevenue t = Except.ok rws ∧
        (rws.map (fun g => g.2)).sum = total := by
  obtain ⟨ki, hki⟩ := colIdx?_isSome_of_any t.header "region" hreg
  obtain ⟨vi, hvi⟩ := colIdx?_isSome_of_any t.header "revenue" hrev
  have htot : calculateTotalRevenue t = Except.ok (sumQ (colValsByName t "revenue")) := by
    simp [calculateTotalRevenue, hrev]
  have hrws : getRegionWiseRevenue t =
      Except.ok (sortDescSnd (groupbySum valueLE (keyValPairs t "region" "revenue"))) := by
    simp [getRegionWiseRevenue, hreg, hrev]
  refine ⟨_, _, htot, hrws, ?_⟩
  have hkeys : ∀ p ∈ keyValPairs t "region" "revenue", p.1 ≠ none := by
    intro p hp
    unfold keyValPairs at hp
    rw [show colIdx t "region" = some ki from hki,
      show colIdx t "revenue" = some vi from hvi] at hp
    rcases List.mem_map.mp hp with ⟨r, hr, rfl⟩
    simp only [optKey]
    split
    · next hna =>
        exfalso
        refine hnona (cellAt r ki) ?_ hna
        unfold colValsByName
        rw [show colIdx t "region" = some ki from hki]
        unfold colVals
        exact List.mem_map_of_mem _ hr
    · simp
  unfold sortDescSnd
  rw [((sortByLE_perm (fun a b : Value × ℚ => b.2 ≤ a.2)
    (groupbySum valueLE (keyValPairs t "region" "revenue"))).map (fun g => g.2)).sum_eq]
  rw [groupbySum_sum valueLE _ hkeys]
  unfold keyValPairs
  rw [show colIdx t "region" = some ki from hki,
    show colIdx t "revenue" = some vi from hvi]
  unfold colValsByName
  rw [show colIdx t "revenue" = some vi from hvi]
  unfold colVals
  rw [List.map_map]
  rfl

/-- Witness for C6 on a one-row table with region "East" and revenue 7. -/
theorem C6_total_eq_region_sum_witness :
    ∃ (total : ℚ) (rws : List (Value × ℚ)),
      calculateTotalRevenue
          ⟨[("region", DType.obj), ("revenue", DType.num)],
            [[Value.str "East", Value.num 7]]⟩ = Except.ok total ∧
        getRegionWiseRevenue
          ⟨[("region", DType.obj), ("revenue", DType.num)],
            [[Value.str "East", Value.num 7]]⟩ = Except.ok rws ∧
        (rws.map (fun g => g.2)).sum = total :=
  C6_total_eq_region_sum _ (by decide) (by decide) (by decide) (by decide)

/-! ## Profit-margin lemmas -/

theorem getD_mem_of_lt {α : Type} (l : List α) (i : Nat) (d : α) (h : i < l.length) :
    l.getD i d ∈ l := by
  rw [List.getD_eq_getElem?_getD, List.getElem?_eq_getElem h]
  simp only [Option.getD_some]
  exact List.getElem_mem h

theorem getD_map_of_lt {α β : Type} (f : α → β) (l : List α) (i : Nat) (d : β) (d' : α)
    (h : i < l.length) : (l.map f).getD i d = f (l.getD i d') := by
  rw [List.getD_eq_getElem?_getD, List.getElem?_map, List.getD_eq_getElem?_getD,
    List.getElem?_eq_getElem h]
  simp

theorem zipWith_map_right_same {α β : Type} (g : α → α → β) (f : α → α) :
    ∀ l : List α, List.zipWith g l (l.map f) = l.map (fun v => g v (f v)) := by
  intro l
  induction l with
  | nil => rfl
  | cons a as ih => simp [List.zipWith_cons_cons, ih]

theorem zipWith_map_left_same {α β : Type} (g : α → α → β) (f : α → α) :
    ∀ l : List α, List.zipWith g (l.map f) l = l.map (fun v => g (f v) v) := by
  intro l
  induction l with
  | nil => rfl
  | cons a as ih => simp [List.zipWith_cons_cons, ih]

theorem sumQ_scaled (c : ℚ) (f : Value → Value) :
    ∀ l : List Value, (∀ v ∈ l, ∃ q : ℚ, v = Value.num q ∧ f v = Value.num (c * q)) →
      sumQ (l.map f) = c * sumQ l := by
  intro l
  induction l with
  | nil => simp [sumQ, numsOf]
  | cons v rest ih =>
      intro h
      obtain ⟨q, hv, hf⟩ := h v (List.mem_cons_self _ _)
      rw [List.map_cons, sumQ_cons, sumQ_cons, hf, hv,
        ih (fun w hw => h w (List.mem_cons_of_mem _ hw))]
      simp only [numOf?, Option.getD_some]
      ring

theorem numsOf_all_num (c : ℚ) :
    ∀ l : List Value, (∀ v ∈ l, v = Value.num c) →
      numsOf l = List.replicate l.length c := by
  intro l
  induction l with
  | nil => intro _; rfl
  | cons v rest ih =>
      intro h
      have hv := h v (List.mem_cons_self _ _)
      subst hv
      show numsOf (Value.num c :: rest) = List.replicate (rest.length + 1) c
      rw [show numsOf (Value.num c :: rest) = c :: numsOf rest from by
        simp [numsOf, List.filterMap_cons, numOf?]]
      rw [ih (fun w hw => h w (List.mem_cons_of_mem _ hw))]
      rfl

/-- The mean of a nonempty constant numeric column is that constant. -/
theorem meanVal_const (c : ℚ) (l : List Value) (hne : l ≠ [])
    (hall : ∀ v ∈ l, v = Value.num c) : meanVal l = Value.num c := by
  have hfilter : l.filter (fun v => !(v = Value.na)) = l := by
    refine List.filter_eq_self.mpr ?_
    intro v hv
    rw [hall v hv]
    simp
  have hempty : l.isEmpty = false := by
    cases l with
    | nil => exact absurd rfl hne
    | cons a as => rfl
  have hanyinf : (l.any fun v => v = Value.inf) = false := by
    rw [List.any_eq_false]
    intro v hv
    rw [hall v hv]
    simp
  have hanyninf : (l.any fun v => v = Value.ninf) = false := by
    rw [List.any_eq_false]
    intro v hv
    rw [hall v hv]
    simp
  unfold meanVal
  simp only [hfilter, hempty, hanyinf, hanyninf, Bool.false_eq_true, if_false]
  congr 1
  rw [foldr_qAdd_eq_sum, numsOf_all_num c l hall, List.sum_replicate, nsmul_eq_mul, qDiv_eq]
  have hlen : ((l.length : ℚ)) ≠ 0 := by
    have hp : 0 < l.length := List.length_pos.mpr hne
    exact_mod_cast Nat.pos_iff_ne_zero.mp hp
  field_simp

theorem mem_insertByLE {α : Type} (le : α → α → Bool) (a : α) (l : List α) (x : α)
    (h : x ∈ insertByLE le a l) : x = a ∨ x ∈ l := by
  have := (insertByLE_perm le a l).mem_iff.mp h
  simpa using this

theorem insertByLE_pairwise {α : Type} (le : α → α → Bool)
    (htot : ∀ a b, le a b = true ∨ le b a = true)
    (htrans : ∀ a b c, le a b = true → le b c = true → le a c = true) (a : α) :
    ∀ l : List α, l.Pairwise (fun x y => le x y = true) →
      (insertByLE le a l).Pairwise (fun x y => le x y = true) := by
  intro l
  induction l with
  | nil => intro _; simp [insertByLE]
  | cons x xs ih =>
      intro h
      simp only [insertByLE]
      split
      · next hax =>
          refine List.pairwise_cons.mpr ⟨?_, h⟩
          intro y hy
          rcases List.mem_cons.mp hy with h1 | h1
          · rw [h1]; exact hax
          · exact htrans a x y hax ((List.pairwise_cons.mp h).1 y h1)
      · next hax =>
          have hxa : le x a = true := by
            rcases htot a x with h1 | h1
            · exact absurd h1 hax
            · exact h1
          refine List.pairwise_cons.mpr ⟨?_, ih (List.pairwise_cons.mp h).2⟩
          intro y hy
          rcases mem_insertByLE le a xs y hy with h1 | h1
          · rw [h1]; exact hxa
          · exact (List.pairwise_cons.mp h).1 y h1

theorem sortByLE_pairwise {α : Type} (le : α → α → Bool)
    (htot : ∀ a b, le a b = true ∨ le b a = true)
    (htrans : ∀ a b c, le a b = true → le b c = true → le a c = true) :
    ∀ l : List α, (sortByLE le l).Pairwise (fun x y => le x y = true) := by
  intro l
  induction l with
  | nil => simp [sortByLE]
  | cons x xs ih => exact insertByLE_pairwise le htot htrans x _ ih

theorem vMulC_num_cell (q a : ℚ) : vMulC (Value.num q) a = Value.num (q * a) := by
  simp [vMulC, qMul_eq]

theorem margin_cell_eq (q : ℚ) (hq : q ≠ 0) :
    vMulC (vDiv (vSub (Value.num q) (vMulC (Value.num q) (mkRat 3 5))) (Value.num q)) 100 =
      Value.num 40 := by
  rw [vMulC_num_cell]
  show vMulC (vDiv (Value.num (qSub q (q * mkRat 3 5))) (Value.num q)) 100 = Value.num 40
  rw [show vDiv (Value.num (qSub q (q * mkRat 3 5))) (Value.num q) =
      Value.num (qDiv (qSub q (q * mkRat 3 5)) q) from by simp [vDiv, hq]]
  rw [vMulC_num_cell]
  congr 1
  rw [qDiv_eq, qSub_eq, Rat.mkRat_eq_div]
  field_simp
  ring

/-- C7 (confirmed).  With no cost column supplied, for every table with
`product` and `revenue` columns whose revenue cells are nonzero numerics:
each result row satisfies cost = 0.6 x (summed) revenue, profit = revenue
minus cost, and the mean per-row profit margin is exactly 40 (every row
contributes margin profit/revenue x 100 = 40), and the result is sorted by
total profit descending.  In particular a row with revenue 100 yields cost
60, profit 40, margin 40. -/
theorem C7_profit_margin_estimate (t : Table)
    (hrev : hasCol t "revenue" = true) (hprod : hasCol t "product" = true)
    (hcells : ∀ v ∈ colValsByName t "revenue", ∃ q : ℚ, v = Value.num q ∧ q ≠ 0) :
    ∃ res : List (Value × ℚ × ℚ × ℚ × Value),
      calculateProfitMargin t none = Except.ok res ∧
        (∀ row ∈ res,
          row.2.2.1 = mkRat 3 5 * row.2.1 ∧
            row.2.2.2.1 = row.2.1 - row.2.2.1 ∧
            row.2.2.2.2 = Value.num 40) ∧
        res.Pairwise (fun a b => b.2.2.2.1 ≤ a.2.2.2.1) := by
  simp only [calculateProfitMargin, hrev, hprod, Bool.not_true, Bool.false_eq_true,
    if_false]
  refine ⟨_, rfl, ?_, ?_⟩
  · -- per-row facts
    intro row hrow
    have hrow2 := (sortByLE_perm _ _).mem_iff.mp hrow
    rcases List.mem_map.mp hrow2 with ⟨k, hk, rfl⟩
    -- index set facts
    set revs := colValsByName t "revenue" with hrevs
    set prods := colValsByName t "product" with hprods
    set idxs := (List.range prods.length).filter
      (fun i => prods.getD i Value.na = k) with hidxs
    have hlen_lt : ∀ i ∈ idxs, i < revs.length := by
      intro i hi
      have h1 : i ∈ List.range prods.length := List.mem_of_mem_filter hi
      have h2 : i < prods.length := List.mem_range.mp h1
      obtain ⟨pi, hpi⟩ := colIdx?_isSome_of_any t.header "product" hprod
      obtain ⟨vi, hvi⟩ := colIdx?_isSome_of_any t.header "revenue" hrev
      have e1 : prods.length = t.rows.length := by
        rw [hprods]
        unfold colValsByName
        rw [show colIdx t "product" = some pi from hpi]
        unfold colVals
        exact List.length_map _ _
      have e2 : revs.length = t.rows.length := by
        rw [hrevs]
        unfold colValsByName
        rw [show colIdx t "revenue" = some vi from hvi]
        unfold colVals
        exact List.length_map _ _
      omega
    -- the rev cells of this group
    have hrevcell : ∀ i ∈ idxs, ∃ q : ℚ, revs.getD i Value.na = Value.num q ∧ q ≠ 0 := by
      intro i hi
      exact hcells _ (getD_mem_of_lt revs i Value.na (hlen_lt i hi))
    -- rewrite the zipWith columns as maps over revs
    rw [zipWith_map_right_same vSub (fun v => vMulC v (mkRat 3 5)) revs]
    rw [zipWith_map_left_same (fun p r => vMulC (vDiv p r) 100)
      (fun v => vSub v (vMulC v (mkRat 3 5))) revs]
    -- list reshaping: getD of map = map of getD
    have hcost_list : idxs.map (fun i =>
        (revs.map (fun v => vMulC v (mkRat 3 5))).getD i Value.na) =
        (idxs.map (fun i => revs.getD i Value.na)).map (fun v => vMulC v (mkRat 3 5)) := by
      rw [List.map_map]
      refine List.map_congr_left ?_
      intro i hi
      exact getD_map_of_lt _ revs i Value.na Value.na (hlen_lt i hi)
    have hprofit_list : idxs.map (fun i =>
        (revs.map (fun v => vSub v (vMulC v (mkRat 3 5)))).getD i Value.na) =
        (idxs.map (fun i => revs.getD i Value.na)).map
          (fun v => vSub v (vMulC v (mkRat 3 5))) := by
      rw [List.map_map]
      refine List.map_congr_left ?_
      intro i hi
      exact getD_map_of_lt _ revs i Value.na Value.na (hlen_lt i hi)
    have hmargin_list : idxs.map (fun i =>
        (revs.map (fun v => vMulC (vDiv (vSub v (vMulC v (mkRat 3 5))) v) 100)).getD
          i Value.na) =
        (idxs.map (fun i => revs.getD i Value.na)).map
          (fun v => vMulC (vDiv (vSub v (vMulC v (mkRat 3 5))) v) 100) := by
      rw [List.map_map]
      refine List.map_congr_left ?_
      intro i hi
      exact getD_map_of_lt _ revs i Value.na Value.na (hlen_lt i hi)
    have hrevlist : ∀ v ∈ idxs.map (fun i => revs.getD i Value.na),
        ∃ q : ℚ, v = Value.num q ∧ q ≠ 0 := by
      intro v hv
      rcases List.mem_map.mp hv with ⟨i, hi, rfl⟩
      exact hrevcell i hi
    refine ⟨?_, ?_, ?_⟩
    · -- cost = 3/5 * revenue
      show sumQ (idxs.map (fun i =>
          (revs.map (fun v => vMulC v (mkRat 3 5))).getD i Value.na)) =
        mkRat 3 5 * sumQ (idxs.map (fun i => revs.getD i Value.na))
      rw [hcost_list]
      refine sumQ_scaled _ _ _ ?_
      intro v hv
      obtain ⟨q, rfl, hq0⟩ := hrevlist v hv
      exact ⟨q, rfl, by rw [vMulC_num_cell]; rw [mul_comm]⟩
    · -- profit = revenue - cost
      show sumQ (idxs.map (fun i =>
          (revs.map (fun v => vSub v (vMulC v (mkRat 3 5)))).getD i Value.na)) =
        sumQ (idxs.map (fun i => revs.getD i Value.na)) -
          sumQ (idxs.map (fun i =>
            (revs.map (fun v => vMulC v (mkRat 3 5))).getD i Value.na))
      rw [hcost_list, hprofit_list]
      have hP : sumQ ((idxs.map (fun i => revs.getD i Value.na)).map
          (fun v => vSub v (vMulC v (mkRat 3 5)))) =
          mkRat 2 5 * sumQ (idxs.map (fun i => revs.getD i Value.na)) := by
        refine sumQ_scaled _ _ _ ?_
        intro v hv
        obtain ⟨q, rfl, hq0⟩ := hrevlist v hv
        refine ⟨q, rfl, ?_⟩
        rw [vMulC_num_cell]
        show Value.num (qSub q (q * mkRat 3 5)) = Value.num (mkRat 2 5 * q)
        congr 1
        rw [qSub_eq, Rat.mkRat_eq_div, Rat.mkRat_eq_div]
        ring
      have hC : sumQ ((idxs.map (fun i => revs.getD i Value.na)).map
          (fun v => vMulC v (mkRat 3 5))) =
          mkRat 3 5 * sumQ (idxs.map (fun i => revs.getD i Value.na)) := by
        refine sumQ_scaled _ _ _ ?_
        intro v hv
        obtain ⟨q, rfl, hq0⟩ := hrevlist v hv
        exact ⟨q, rfl, by rw [vMulC_num_cell]; rw [mul_comm]⟩
      rw [hP, hC, Rat.mkRat_eq_div, Rat.mkRat_eq_div]
      ring
    · -- mean margin = 40
      show meanVal (idxs.map (fun i =>
          (revs.map (fun v => vMulC (vDiv (vSub v (vMulC v (mkRat 3 5))) v) 100)).getD
            i Value.na)) = Value.num 40
      rw [hmargin_list]
      refine meanVal_const 40 _ ?_ ?_
      · -- nonempty: k appears among the products
        have hkp := (sortByLE_perm valueLE _).mem_iff.mp hk
        have hk2 : k ∈ prods.filter (fun x => !(x = Value.na)) :=
          mem_of_mem_dedupAux _ _ _ hkp
        have hk3 : k ∈ prods := List.mem_of_mem_filter hk2
        obtain ⟨i, hi, heq⟩ := List.mem_iff_getElem.mp hk3
        have hidx : i ∈ idxs := by
          rw [hidxs]
          refine List.mem_filter.mpr ⟨List.mem_range.mpr hi, ?_⟩
          rw [List.getD_eq_getElem?_getD, List.getElem?_eq_getElem hi]
          simpa using heq
        intro hcon
        have : idxs = [] := by
          have := congrArg (List.length) hcon
          simp at this
          exact this
        rw [this] at hidx
        simp at hidx
      · intro v hv
        rcases List.mem_map.mp hv with ⟨w, hw, rfl⟩
        obtain ⟨q, rfl, hq0⟩ := hrevlist w hw
        exact margin_cell_eq q hq0
  · -- sortedness
    refine (sortByLE_pairwise _ ?_ ?_ _).imp ?_
    · intro a b
      rcases le_total b.2.2.2.1 a.2.2.2.1 with h | h
      · exact Or.inl (by simpa using h)
      · exact Or.inr (by simpa using h)
    · intro a b c h1 h2
      have h1' : b.2.2.2.1 ≤ a.2.2.2.1 := by simpa using h1
      have h2' : c.2.2.2.1 ≤ b.2.2.2.1 := by simpa using h2
      simpa using le_trans h2' h1'
    · intro a b h
      simpa using h

/-- Witness for C7: the one-row Widget table with revenue 100 produces
exactly the row (Widget, 100, 60, 40, 40), and the theorem applies. -/
theorem C7_profit_margin_estimate_witness :
    calculateProfitMargin
        ⟨[("product", DType.obj), ("revenue", DType.num)],
          [[Value.str "Widget", Value.num 100]]⟩ none =
      Except.ok [(Value.str "Widget", 100, 60, 40, Value.num 40)] ∧
    (∃ res : List (Value × ℚ × ℚ × ℚ × Value),
      calculateProfitMargin
          ⟨[("product", DType.obj), ("revenue", DType.num)],
            [[Value.str "Widget", Value.num 100]]⟩ none = Except.ok res ∧
        (∀ row ∈ res,
          row.2.2.1 = mkRat 3 5 * row.2.1 ∧
            row.2.2.2.1 = row.2.1 - row.2.2.1 ∧
            row.2.2.2.2 = Value.num 40) ∧
        res.Pairwise (fun a b => b.2.2.2.1 ≤ a.2.2.2.1)) :=
  ⟨by decide, C7_profit_margin_estimate _ (by decide) (by decide) (by
    intro v hv
    rw [show colValsByName ⟨[("product", DType.obj), ("revenue", DType.num)],
        [[Value.str "Widget", Value.num 100]]⟩ "revenue" = [Value.num 100] from by decide] at hv
    obtain rfl := List.mem_singleton.mp hv
    exact ⟨100, rfl, by norm_num⟩)⟩

/-! ## Schema-error claims -/

/-- C8 (confirmed).  Every analyzer aggregate signals an error naming the
missing required column(s) instead of returning an empty result: the four
guarded methods raise their `ValueError` messages, and
`calculate_profit_margin` raises its guard error for a missing `revenue`
and the pandas `KeyError("product")` when grouping by a missing `product`
column. -/
theorem C8_missing_column_errors :
    (∀ t : Table, hasCol t "revenue" = false →
        calculateTotalRevenue t = Except.error "revenue column not found in dataframe") ∧
      (∀ (t : Table) (n : Nat),
        (hasCol t "product" = false ∨ hasCol t "revenue" = false) →
        getTopProducts t n = Except.error "Required columns product and revenue not found") ∧
      (∀ t : Table, (hasCol t "region" = false ∨ hasCol t "revenue" = false) →
        getRegionWiseRevenue t =
          Except.error "Required columns region and revenue not found") ∧
      (∀ t : Table, (hasCol t "date" = false ∨ hasCol t "revenue" = false) →
        calculateMonthlyGrowthRate t =
          Except.error "Required columns date and revenue not found") ∧
      (∀ (t : Table) (c : Option String), hasCol t "revenue" = false →
        calculateProfitMargin t c = Except.error "revenue column not found") ∧
      (∀ (t : Table) (c : Option String),
        hasCol t "revenue" = true → hasCol t "product" = false →
        calculateProfitMargin t c = Except.error "product") := by
  refine ⟨?_, ?_, ?_, ?_, ?_, ?_⟩
  · intro t h
    simp [calculateTotalRevenue, h]
  · intro t n h
    rcases h with h | h <;> simp [getTopProducts, h]
  · intro t h
    rcases h with h | h <;> simp [getRegionWiseRevenue, h]
  · intro t h
    rcases h with h | h <;> simp [calculateMonthlyGrowthRate, h]
  · intro t c h
    simp [calculateProfitMargin, h]
  · intro t c h1 h2
    simp [calculateProfitMargin, h1, h2]

/-- Witness for C8 on the empty table and a revenue-only table. -/
theorem C8_missing_column_errors_witness :
    calculateTotalRevenue ⟨[], []⟩ =
        Except.error "revenue column not found in dataframe" ∧
      getTopProducts ⟨[], []⟩ 10 =
        Except.error "Required columns product and revenue not found" ∧
      getRegionWiseRevenue ⟨[], []⟩ =
        Except.error "Required columns region and revenue not found" ∧
      calculateMonthlyGrowthRate ⟨[], []⟩ =
        Except.error "Required columns date and revenue not found" ∧
      calculateProfitMargin ⟨[], []⟩ none =
        Except.error "revenue column not found" ∧
      calculateProfitMargin ⟨[("revenue", DType.num)], []⟩ none =
        Except.error "product" :=
  ⟨C8_missing_column_errors.1 _ (by decide),
    C8_missing_column_errors.2.1 _ 10 (Or.inl (by decide)),
    C8_missing_column_errors.2.2.1 _ (Or.inl (by decide)),
    C8_missing_column_errors.2.2.2.1 _ (Or.inl (by decide)),
    C8_missing_column_errors.2.2.2.2.1 _ none (by decide),
    C8_missing_column_errors.2.2.2.2.2 _ none (by decide) (by decide)⟩

/-! ## Monthly growth lemmas -/

theorem mapM_strictParse_dates :
    ∀ l : List Value, (∀ v ∈ l, ∃ d : Date, v = Value.date d) →
      ∃ ds : List (Option Date), l.mapM strictParseDate = Except.ok ds ∧
        List.Forall₂ (fun v od => ∃ d : Date, v = Value.date d ∧ od = some d) l ds := by
  intro l
  induction l with
  | nil => exact fun _ => ⟨[], rfl, List.Forall₂.nil⟩
  | cons v rest ih =>
      intro h
      obtain ⟨d, rfl⟩ := h v (List.mem_cons_self _ _)
      obtain ⟨ds, hds, hf⟩ := ih (fun w hw => h w (List.mem_cons_of_mem _ hw))
      refine ⟨some d :: ds, ?_, List.Forall₂.cons ⟨d, rfl, rfl⟩ hf⟩
      rw [List.mapM_cons, hds]
      rfl

theorem head_growth_zero (monthly : List ((Nat × Nat) × ℚ)) :
    ∀ first ∈ (List.zipWith (fun ym pr => (monthLabel ym, pr))
        (monthly.map (fun p => p.1))
        (List.zip (monthly.map (fun p => p.2))
          (fillNaZero (pctChange (monthly.map (fun p => p.2)))))).head?,
      first.2.2 = Value.num 0 := by
  cases monthly with
  | nil => simp
  | cons m ms =>
      intro first hf
      simp only [List.map_cons, pctChange, fillNaZero, List.map_cons, List.zip_cons_cons,
        List.zipWith_cons_cons, List.head?_cons, Option.mem_def, Option.some.injEq] at hf
      rw [← hf]
      simp

theorem dedupAux_of_all_mem_seen {α : Type} [DecidableEq α] :
    ∀ (l seen : List α), (∀ a ∈ l, a ∈ seen) → dedupAux seen l = [] := by
  intro l
  induction l with
  | nil => intro _ _; rfl
  | cons r rs ih =>
      intro seen h
      simp only [dedupAux, if_pos (h r (List.mem_cons_self _ _))]
      exact ih seen (fun a ha => h a (List.mem_cons_of_mem _ ha))

theorem dedupAux_all_eq {α : Type} [DecidableEq α] (k : α) :
    ∀ l : List α, (∀ a ∈ l, a = k) → l ≠ [] → dedupAux ([] : List α) l = [k] := by
  intro l
  cases l with
  | nil => intro _ h; exact absurd rfl h
  | cons a rest =>
      intro h _
      have ha : a = k := h a (List.mem_cons_self _ _)
      subst ha
      rw [show dedupAux ([] : List α) (a :: rest) = a :: dedupAux [a] rest from by
        simp [dedupAux]]
      rw [dedupAux_of_all_mem_seen rest [a] (fun b hb => by
        rw [h b (List.mem_cons_of_mem _ hb)]
        exact List.mem_singleton.mpr rfl)]

theorem zip_keys_const {ym : Nat × Nat} :
    ∀ (ds : List (Option Date)) (revs : List Value),
      (∀ od ∈ ds, ∃ d : Date, od = some d ∧ monthKey d = ym) →
      ∀ p ∈ List.zipWith (fun od v => (od.map monthKey, v)) ds revs,
        p.1 = some ym := by
  intro ds
  induction ds with
  | nil => intro revs _ p hp; simp at hp
  | cons od rest ih =>
      intro revs h p hp
      cases revs with
      | nil => simp at hp
      | cons v vs =>
          rw [List.zipWith_cons_cons] at hp
          rcases List.mem_cons.mp hp with h1 | h1
          · obtain ⟨d, rfl, hmk⟩ := h od (List.mem_cons_self _ _)
            rw [h1]
            simp [hmk]
          · exact ih vs (fun w hw => h w (List.mem_cons_of_mem _ hw)) p h1

theorem forall_some_of_forall₂ {ym : Nat × Nat} :
    ∀ {l : List Value} {ds : List (Option Date)},
      List.Forall₂ (fun v od => ∃ d : Date, v = Value.date d ∧ od = some d) l ds →
      (∀ v ∈ l, ∀ d : Date, v = Value.date d → monthKey d = ym) →
      ∀ od ∈ ds, ∃ d : Date, od = some d ∧ monthKey d = ym := by
  intro l ds h
  induction h with
  | nil => intro _ od hod; simp at hod
  | cons hR hF ih =>
      intro hmk od hod
      rcases List.mem_cons.mp hod with h1 | h1
      · obtain ⟨d, hv, rfl⟩ := hR
        subst h1
        exact ⟨d, rfl, hmk _ (List.mem_cons_self _ _) d hv⟩
      · exact ih (fun v hv => hmk v (List.mem_cons_of_mem _ hv)) od h1

/-- C4 counterexample: two months with revenues 0 then 100.  The first
bucket gets growth 0, but the February bucket divides by the zero January
revenue, producing positive infinity, which `fillna(0)` does not replace —
so not every undefined growth value is normalized to 0. -/
theorem C4_counterexample :
    calculateMonthlyGrowthRate
        ⟨[("date", DType.dt), ("revenue", DType.num)],
          [[Value.date ⟨2024, 1, 15⟩, Value.num 0],
           [Value.date ⟨2024, 2, 15⟩, Value.num 100]]⟩ =
        Except.ok [("2024-01", 0, Value.num 0), ("2024-02", 100, Value.inf)] ∧
      Value.inf ≠ Value.num 0 :=
  ⟨by decide, by decide⟩

/-- C4 (corrected).  Whenever `calculate_monthly_growth_rate` succeeds:
the first (chronologically earliest) month bucket has growth rate 0, and a
table whose dates all fall in one calendar month yields exactly one row
with growth rate 0.  NaN growth values (the first bucket, and a 0/0 when
both the prior and the current month sum to 0) are normalized to 0 by
`fillna(0)`, but dividing a nonzero month total by a zero prior month
yields a signed infinity which `fillna(0)` does not touch, so those values
are not normalized. -/
theorem C4_monthly_growth (t : Table) (rows : List (String × ℚ × Value))
    (hok : calculateMonthlyGrowthRate t = Except.ok rows) :
    (∀ first ∈ rows.head?, first.2.2 = Value.num 0) ∧
      ((∃ ym : Nat × Nat, t.rows ≠ [] ∧
          ∀ v ∈ colValsByName t "date", ∃ d : Date, v = Value.date d ∧ monthKey d = ym) →
        ∃ r, rows = [r] ∧ r.2.2 = Value.num 0) := by
  constructor
  · unfold calculateMonthlyGrowthRate at hok
    split at hok
    · exact absurd hok (by simp)
    · split at hok
      · exact absurd hok (by simp)
      · next dcol heq =>
          simp only [Except.ok.injEq] at hok
          rw [← hok]
          exact head_growth_zero _
  · rintro ⟨ym, hne, hall⟩
    have hdates : ∀ v ∈ colValsByName t "date", ∃ d : Date, v = Value.date d := by
      intro v hv
      obtain ⟨d, hd, _⟩ := hall v hv
      exact ⟨d, hd⟩
    obtain ⟨ds, hds, hf⟩ := mapM_strictParse_dates _ hdates
    -- guards are false since the call succeeded
    have hguard : (!(hasCol t "date") || !(hasCol t "revenue")) = false := by
      by_cases hcd : hasCol t "date" = true
      · by_cases hcr : hasCol t "revenue" = true
        · simp [hcd, hcr]
        · exfalso
          have hcr2 : hasCol t "revenue" = false := by simpa using hcr
          unfold calculateMonthlyGrowthRate at hok
          rw [if_pos (by simp [hcr2])] at hok
          exact absurd hok (by simp)
      · exfalso
        have hcd2 : hasCol t "date" = false := by simpa using hcd
        unfold calculateMonthlyGrowthRate at hok
        rw [if_pos (by simp [hcd2])] at hok
        exact absurd hok (by simp)
    have hkeys : ∀ od ∈ ds, ∃ d : Date, od = some d ∧ monthKey d = ym :=
      forall_some_of_forall₂ hf (fun v hv d hvd => by
        obtain ⟨d2, hd2, hmk2⟩ := hall v hv
        rw [hvd] at hd2
        obtain rfl : d = d2 := by injection hd2
        exact hmk2)
    have hdcol : hasCol t "date" = true := by
      rcases Bool.or_eq_false_iff.mp hguard with ⟨h1, _⟩
      simpa using h1
    have hrcol : hasCol t "revenue" = true := by
      rcases Bool.or_eq_false_iff.mp hguard with ⟨_, h2⟩
      simpa using h2
    obtain ⟨di, hdi⟩ := colIdx?_isSome_of_any t.header "date" hdcol
    obtain ⟨vi, hvi⟩ := colIdx?_isSome_of_any t.header "revenue" hrcol
    have hlend : (colValsByName t "date").length = t.rows.length := by
      unfold colValsByName
      rw [show colIdx t "date" = some di from hdi]
      unfold colVals
      exact List.length_map _ _
    have hlenr : (colValsByName t "revenue").length = t.rows.length := by
      unfold colValsByName
      rw [show colIdx t "revenue" = some vi from hvi]
      unfold colVals
      exact List.length_map _ _
    have hlends : ds.length = t.rows.length := by
      rw [← hf.length_eq]
      exact hlend
    have hrowpos : 0 < t.rows.length := List.length_pos.mpr hne
    have hpne : List.zipWith (fun od v => (od.map monthKey, v)) ds
        (colValsByName t "revenue") ≠ [] := by
      have hl : (List.zipWith (fun od v => (od.map monthKey, v)) ds
          (colValsByName t "revenue")).length = t.rows.length := by
        rw [List.length_zipWith, hlends, hlenr]
        omega
      intro hcon
      rw [hcon] at hl
      simp at hl
      omega
    have hkeysP : ∀ p ∈ List.zipWith (fun od v => (od.map monthKey, v)) ds
        (colValsByName t "revenue"), p.1 = some ym :=
      zip_keys_const ds _ hkeys
    have hfm : ∀ a ∈ (List.zipWith (fun od v => (od.map monthKey, v)) ds
        (colValsByName t "revenue")).filterMap Prod.fst, a = ym := by
      intro a ha
      rcases List.mem_filterMap.mp ha with ⟨p, hp, hfst⟩
      have hpk := hkeysP p hp
      rw [hpk] at hfst
      exact (Option.some.injEq _ _ ▸ hfst).symm ▸ rfl
    have hfmne : (List.zipWith (fun od v => (od.map monthKey, v)) ds
        (colValsByName t "revenue")).filterMap Prod.fst ≠ [] := by
      obtain ⟨p0, hp0⟩ := List.exists_mem_of_ne_nil _ hpne
      refine List.ne_nil_of_mem (a := ym) ?_
      exact List.mem_filterMap.mpr ⟨p0, hp0, hkeysP p0 hp0⟩
    have hded : dedupAux [] ((List.zipWith (fun od v => (od.map monthKey, v)) ds
        (colValsByName t "revenue")).filterMap Prod.fst) = [ym] :=
      dedupAux_all_eq ym _ hfm hfmne
    have hgb : groupbySum monthLE (List.zipWith (fun od v => (od.map monthKey, v)) ds
        (colValsByName t "revenue")) =
        [(ym, sumQ ((List.zipWith (fun od v => (od.map monthKey, v)) ds
          (colValsByName t "revenue")).filterMap
            (fun p => if p.1 = some ym then some p.2 else none)))] := by
      unfold groupbySum
      rw [hded]
      rfl
    have hcomp : calculateMonthlyGrowthRate t = Except.ok rows := hok
    unfold calculateMonthlyGrowthRate at hcomp
    rw [if_neg (by simp [hguard])] at hcomp
    rw [hds] at hcomp
    simp only [hgb, List.map_cons, List.map_nil, pctChange, pctAux, fillNaZero,
      List.zip_cons_cons, List.zip_nil_right, List.zipWith_cons_cons, List.zipWith_nil_right,
      Except.ok.injEq] at hcomp
    refine ⟨(monthLabel ym, sumQ ((List.zipWith (fun od v => (od.map monthKey, v)) ds
      (colValsByName t "revenue")).filterMap
        (fun p => if p.1 = some ym then some p.2 else none)), Value.num 0), ?_, rfl⟩
    rw [← hcomp]
    simp

/-- Witness for C4 on a two-row single-month (March 2024) table: the
result is one row with growth 0. -/
theorem C4_monthly_growth_witness :
    ∃ r, ([("2024-03", (12 : ℚ), Value.num 0)] : List (String × ℚ × Value)) = [r] ∧
      r.2.2 = Value.num 0 :=
  (C4_monthly_growth
      ⟨[("date", DType.dt), ("revenue", DType.num)],
        [[Value.date ⟨2024, 3, 1⟩, Value.num 5],
         [Value.date ⟨2024, 3, 20⟩, Value.num 7]]⟩
      [("2024-03", 12, Value.num 0)] (by decide)).2
    (by
      refine ⟨(2024, 3), by decide, ?_⟩
      intro v hv
      rw [show colValsByName
          ⟨[("date", DType.dt), ("revenue", DType.num)],
            [[Value.date ⟨2024, 3, 1⟩, Value.num 5],
             [Value.date ⟨2024, 3, 20⟩, Value.num 7]]⟩ "date" =
          [Value.date ⟨2024, 3, 1⟩, Value.date ⟨2024, 3, 20⟩] from by decide] at hv
      rcases List.mem_cons.mp hv with rfl | hv2
      · exact ⟨⟨2024, 3, 1⟩, rfl, rfl⟩
      · rcases List.mem_cons.mp hv2 with rfl | hv3
        · exact ⟨⟨2024, 3, 20⟩, rfl, rfl⟩
        · simp at hv3)

end SalesDashboard
